import Mathlib

/-!
Verification of the secret-sharing / multi-node coordination layer of the
feedback-widget repository: the `SecretVaultWrapper` fan-out operations
(`src/unnamed/part_000`) and the `NilQLWrapper` allotment engine
(`src/server/node_modules/secretvaults/nilQl/wrapper.js`).

JavaScript values are embedded as the inductive type `Val` (a JSON-like
tree extended with `undef` for JavaScript's `undefined`); the functions of
the repository are translated clause by clause from the source.  The
underlying `@nillion/nilql` primitives (`encrypt`, `allot`, `unify`,
key generation) are not part of the repository; where a definition stands
in for them it is modelled from the specification and marked as such.
-/

namespace FeedbackVault

/-- Embedding of the JavaScript values the vault layer manipulates:
JSON trees plus `undefined`. -/
inductive Val where
  | undef : Val
  | null : Val
  | bool : Bool → Val
  | num : Int → Val
  | str : String → Val
  | arr : List Val → Val
  | obj : List (String × Val) → Val
deriving Repr, BEq

/-- JavaScript truthiness (`if (x)`): `undefined`, `null`, `false`, `0`
and the empty string are falsy; every object or array is truthy. -/
def Val.truthy : Val → Bool
  | .undef => false
  | .null => false
  | .bool b => b
  | .num n => n != 0
  | .str s => s ≠ ""
  | .arr _ => true
  | .obj _ => true

/-- Property read `v[k]`: first matching key, `undefined` when absent or
when `v` is not an object. -/
def Val.getF (v : Val) (k : String) : Val :=
  match v with
  | .obj fs =>
    match fs.find? (fun p => p.1 == k) with
    | some p => p.2
    | none => .undef
  | _ => (.undef)

/-- `typeof v === "object" && v !== null` (arrays are objects in JS). -/
def Val.isObject : Val → Bool
  | .arr _ => true
  | .obj _ => true
  | _ => false

/-- `"%allot" in value` for a JavaScript object.  Arrays never carry the
marker (the `in` operator checks index keys on arrays). -/
def Val.isMarked : Val → Bool
  | .obj fs => fs.any (fun p => p.1 == "%allot")
  | _ => false

/-- The object spread-with-override `\x7b...record, k: x\x7d`: keeps the
original key order, overriding `k` in place when present, appending it
otherwise. -/
def Val.setF (v : Val) (k : String) (x : Val) : Val :=
  match v with
  | .obj fs =>
    if fs.any (fun p => p.1 == k) then
      .obj (fs.map (fun p => if p.1 == k then (p.1, x) else p))
    else
      .obj (fs ++ [(k, x)])
  | _ => .obj [(k, x)]

/-- Field list of a JavaScript object (`Object.entries` for objects);
empty for non-objects. -/
def Val.fieldsOf : Val → List (String × Val)
  | .obj fs => fs
  | _ => []

/-- Element list of a JavaScript array; empty for non-arrays. -/
def Val.itemsOf : Val → List Val
  | .arr xs => xs
  | _ => []

/-- JS object literal `\x7b ...base, k1: x1, ... \x7d`: spread the base
object, then write the named keys (overriding in place, appending new
keys at the end). -/
def spreadFields (base : Val) (extras : List (String × Val)) : Val :=
  extras.foldl (fun acc p => acc.setF p.1 p.2) (.obj base.fieldsOf)

/-! ## NilQLWrapper (src/server/node_modules/secretvaults/nilQl/wrapper.js)

The underlying `@nillion/nilql` primitives are abstracted: `enc k v`
stands for `nilql.encrypt(secretKey, v)` (producing the share list) and
`comb k shares` for the recombination the library performs.  The wrapper
code itself (key guard, `init` branching, the `encryptDeep` walk) is
translated clause by clause from the source. -/

/-- `KeyType` enum (wrapper.js lines 4-7). -/
def KeyType.CLUSTER : String := "cluster"

/-- `KeyType.SECRET` (wrapper.js line 6). -/
def KeyType.SECRET : String := "secret"

/-- The two errors the wrapper throws: `"NilQLWrapper not initialized.
Call init() first."` and `"Unsupported key type"`. -/
inductive NilQLError where
  | notInitialized
  | unsupportedKeyType
deriving Repr, DecidableEq

/-- State of a `NilQLWrapper` instance (constructor, wrapper.js lines
27-41).  `K` is the type of the opaque key material handle; `secretKey`
is `null` (`none`) unless a key was supplied or established.  The
`cluster` and `operation` fields only parameterize the external key
generators and are left to those parameters. -/
structure NilQLWrapper (K : Type) where
  secretKey : Option K
  secretKeySeed : Option String
  keyType : String
deriving Repr

/-- `NilQLWrapper.init` (wrapper.js lines 48-76), returning the thrown
error (if any) together with the instance state at that point — the
`throw` in the `switch` default happens before any assignment, so the
state it leaves behind is the input state.  `genSeed`, `genSecret`,
`genCluster` stand for the external `nilql.SecretKey.generate` (with and
without seed) and `nilql.ClusterKey.generate`. -/
def NilQLWrapper.init (genSeed : String → K) (genSecret genCluster : K)
    (s : NilQLWrapper K) : Option NilQLError × NilQLWrapper K :=
  -- `if (this.secretKeySeed && this.secretKey === null)`
  let s1 :=
    match s.secretKeySeed, s.secretKey with
    | some seed, none =>
      if seed ≠ "" then { s with secretKey := some (genSeed seed) } else s
    | _, _ => s
  -- `if (this.secretKey === null) switch (this.keyType) ...`
  match s1.secretKey with
  | some _ => (none, s1)
  | none =>
    if s1.keyType == KeyType.SECRET then
      (none, { s1 with secretKey := some genSecret })
    else if s1.keyType == KeyType.CLUSTER then
      (none, { s1 with secretKey := some genCluster })
    else
      (some .unsupportedKeyType, s1)

/-- `NilQLWrapper.encrypt` (wrapper.js lines 84-90): guard
`if (!this.secretKey) throw`, then `nilql.encrypt(this.secretKey, data)`
(abstracted as `enc`). -/
def NilQLWrapper.encrypt (enc : K → Val → List Val) (s : NilQLWrapper K)
    (data : Val) : Except NilQLError (List Val) :=
  match s.secretKey with
  | none => .error .notInitialized
  | some k => .ok (enc k data)

/-- `NilQLWrapper.decrypt` (wrapper.js lines 98-104): the same guard,
then `nilql.decrypt(this.secretKey, shares)` (abstracted as `dec`). -/
def NilQLWrapper.decrypt (dec : K → List Val → Val) (s : NilQLWrapper K)
    (shares : List Val) : Except NilQLError Val :=
  match s.secretKey with
  | none => .error .notInitialized
  | some k => .ok (dec k shares)

mutual

/-- The recursive walk `encryptDeep` inside `prepareAndAllot`
(wrapper.js lines 124-145): non-object values are returned as-is;
for each entry of an object or array, an object value carrying the
`%allot` key is replaced by `\x7b "%allot": nilql.encrypt(key, value["%allot"]) \x7d`,
any other object value is recursed into, and non-object values are
copied unchanged. -/
def encryptDeep (split : Val → List Val) : Val → Val
  | .obj fs => .obj (encryptFields split fs)
  | .arr xs => .arr (encryptItems split xs)
  | v => v

/-- Field loop of `encryptDeep` over `Object.entries(obj)`. -/
def encryptFields (split : Val → List Val) :
    List (String × Val) → List (String × Val)
  | [] => []
  | (k, .obj gs) :: fs =>
    (k,
      if gs.any (fun p => p.1 == "%allot") then
        .obj [("%allot", .arr (split ((Val.obj gs).getF "%allot")))]
      else encryptDeep split (.obj gs)) :: encryptFields split fs
  | (k, .arr xs) :: fs =>
    (k, encryptDeep split (.arr xs)) :: encryptFields split fs
  | (k, v) :: fs => (k, v) :: encryptFields split fs

/-- Item loop of `encryptDeep` over an array's entries. -/
def encryptItems (split : Val → List Val) : List Val → List Val
  | [] => []
  | .obj gs :: vs =>
    (if gs.any (fun p => p.1 == "%allot") then
        .obj [("%allot", .arr (split ((Val.obj gs).getF "%allot")))]
      else encryptDeep split (.obj gs)) :: encryptItems split vs
  | .arr xs :: vs =>
    encryptDeep split (.arr xs) :: encryptItems split vs
  | v :: vs => v :: encryptItems split vs

end

/-- Entry transformation of `encryptDeep`'s loop body for one value,
as a standalone function. -/
def encryptEntry (split : Val → List Val) (v : Val) : Val :=
  if v.isObject then
    if v.isMarked then .obj [("%allot", .arr (split (v.getF "%allot")))]
    else encryptDeep split v
  else v

/-- The field loop steps entrywise. -/
theorem encryptFields_cons (split : Val → List Val) (k : String) (v : Val)
    (fs : List (String × Val)) :
    encryptFields split ((k, v) :: fs)
      = (k, encryptEntry split v) :: encryptFields split fs := by
  cases v <;> simp [encryptFields, encryptEntry, Val.isObject, Val.isMarked]

/-- The item loop steps entrywise. -/
theorem encryptItems_cons (split : Val → List Val) (v : Val)
    (vs : List Val) :
    encryptItems split (v :: vs)
      = encryptEntry split v :: encryptItems split vs := by
  cases v <;> simp [encryptItems, encryptEntry, Val.isObject, Val.isMarked]

/-- Share selection inside a marked node: element `i` of the share
array (`undefined` past the end); a non-array share payload is carried
verbatim (the single-ciphertext sharing modes of the spec's §3 edge
case). -/
def shareAt (v : Val) (i : Nat) : Val :=
  match v with
  | .arr ss => ss.getD i .undef
  | v => v

/-- Length of a marked node's share payload (1 for a single
ciphertext). -/
def shareLen (v : Val) : Nat :=
  match v with
  | .arr ss => ss.length
  | _ => 1

mutual

/-- Modelled from the spec: node variant `i` of `nilql.allot`'s output
(§3 Node Share Set, §4.2) — the library itself is not part of the
repository.  Fields not marked shareable hold the identical value in
every variant; a `%allot`-marked node holds share `i`, still wrapped
with the marker tag, under the same field name. -/
def allotVariant (i : Nat) : Val → Val
  | .obj fs =>
    if fs.any (fun p => p.1 == "%allot") then
      .obj [("%allot", shareAt ((Val.obj fs).getF "%allot") i)]
    else .obj (variantFields i fs)
  | .arr xs => .arr (variantItems i xs)
  | v => v

/-- Field loop of `allotVariant` (modelled from the spec). -/
def variantFields (i : Nat) : List (String × Val) → List (String × Val)
  | [] => []
  | (k, v) :: fs => (k, allotVariant i v) :: variantFields i fs

/-- Item loop of `allotVariant` (modelled from the spec). -/
def variantItems (i : Nat) : List Val → List Val
  | [] => []
  | v :: vs => allotVariant i v :: variantItems i vs

end

mutual

/-- Modelled from the spec: the share counts found at the `%allot`-marked
nodes of a prepared record (§3: the shares-array the sharing primitive
emitted at each marked field). -/
def markedLens : Val → List Nat
  | .obj fs =>
    if fs.any (fun p => p.1 == "%allot") then
      [shareLen ((Val.obj fs).getF "%allot")]
    else markedLensFields fs
  | .arr xs => markedLensItems xs
  | _ => []

/-- Field loop of `markedLens`. -/
def markedLensFields : List (String × Val) → List Nat
  | [] => []
  | (_, v) :: fs => markedLens v ++ markedLensFields fs

/-- Item loop of `markedLens`. -/
def markedLensItems : List Val → List Nat
  | [] => []
  | v :: vs => markedLens v ++ markedLensItems vs

end

/-- Modelled from the spec: the number of node variants `nilql.allot`
emits for a prepared record — the shares-array length of its marked
fields, or a single variant when nothing is marked (§3's edge case
"some sharing modes emit a single ciphertext rather than N shares"). -/
def allotCount (v : Val) : Nat :=
  (markedLens v).foldr Nat.max 1

/-- Modelled from the spec: `nilql.allot` (§4.2) — the ordered sequence
of node-specific record variants produced from the walked record. -/
def allot (v : Val) : List Val :=
  (List.range (allotCount v)).map (fun i => allotVariant i v)

/-- `NilQLWrapper.prepareAndAllot` (wrapper.js lines 119-149): the
initialization guard, then `nilql.allot(await encryptDeep(data))`. -/
def NilQLWrapper.prepareAndAllot (enc : K → Val → List Val)
    (s : NilQLWrapper K) (data : Val) : Except NilQLError (List Val) :=
  match s.secretKey with
  | none => .error .notInitialized
  | some k => .ok (allot (encryptDeep (enc k) data))

mutual

/-- Modelled from the spec: the structural walk of `nilql.unify`
(§4.1 recombine, glossary) over the first share and the remaining
shares — at a `%allot`-marked node the share components of all
variants are gathered in order and recombined (`comb`); plain leaves
are taken as-is; containers are walked positionally (all variants of
one record share their shape). -/
def unifyWith (comb : List Val → Val) : Val → List Val → Val
  | .obj fs, os =>
    if fs.any (fun p => p.1 == "%allot") then
      comb (((Val.obj fs).getF "%allot") :: os.map (fun o => o.getF "%allot"))
    else .obj (unifyFields comb fs (os.map Val.fieldsOf))
  | .arr xs, os => .arr (unifyItems comb xs (os.map Val.itemsOf))
  | v, _ => v

/-- Field loop of `unifyWith` (modelled from the spec). -/
def unifyFields (comb : List Val → Val) :
    List (String × Val) → List (List (String × Val)) → List (String × Val)
  | [], _ => []
  | (k, v) :: fs, oss =>
    (k, unifyWith comb v (oss.map (fun l => ((l.headD ("", .undef)).2)))) ::
      unifyFields comb fs (oss.map List.tail)

/-- Item loop of `unifyWith` (modelled from the spec). -/
def unifyItems (comb : List Val → Val) :
    List Val → List (List Val) → List Val
  | [], _ => []
  | x :: xs, oss =>
    unifyWith comb x (oss.map (fun l => l.headD .undef)) ::
      unifyItems comb xs (oss.map List.tail)

end

/-- Modelled from the spec: `nilql.unify` on a share group (§4.1) — the
walk starts from the first share of the group. -/
def unifyVals (comb : List Val → Val) : List Val → Val
  | [] => .undef
  | v :: vs => unifyWith comb v vs

/-- `NilQLWrapper.unify` (wrapper.js lines 157-163): the initialization
guard, then `nilql.unify(this.secretKey, shares)` (modelled by
`unifyVals (comb k)`). -/
def NilQLWrapper.unify (comb : K → List Val → Val) (s : NilQLWrapper K)
    (shares : List Val) : Except NilQLError Val :=
  match s.secretKey with
  | none => .error .notInitialized
  | some k => .ok (unifyVals (comb k) shares)

mutual

/-- Every `%allot`-marked value of the record splits into exactly `n`
shares — the "complete set of N node shares" situation of the spec's
round-trip property (the walk mirrors `encryptDeep`). -/
def uniformShares (split : Val → List Val) (n : Nat) : Val → Bool
  | .obj fs => uniformFields split n fs
  | .arr xs => uniformItems split n xs
  | _ => true

/-- Field loop of `uniformShares`. -/
def uniformFields (split : Val → List Val) (n : Nat) :
    List (String × Val) → Bool
  | [] => true
  | (_, .obj gs) :: fs =>
    (if gs.any (fun p => p.1 == "%allot") then
        (split ((Val.obj gs).getF "%allot")).length == n
      else uniformShares split n (.obj gs)) && uniformFields split n fs
  | (_, .arr xs) :: fs =>
    uniformShares split n (.arr xs) && uniformFields split n fs
  | _ :: fs => uniformFields split n fs

/-- Item loop of `uniformShares`. -/
def uniformItems (split : Val → List Val) (n : Nat) : List Val → Bool
  | [] => true
  | .obj gs :: vs =>
    (if gs.any (fun p => p.1 == "%allot") then
        (split ((Val.obj gs).getF "%allot")).length == n
      else uniformShares split n (.obj gs)) && uniformItems split n vs
  | .arr xs :: vs =>
    uniformShares split n (.arr xs) && uniformItems split n vs
  | _ :: vs => uniformItems split n vs

end

/-- Entry form of `uniformShares`. -/
def uniformEntry (split : Val → List Val) (n : Nat) (v : Val) : Bool :=
  if v.isObject then
    if v.isMarked then (split (v.getF "%allot")).length == n
    else uniformShares split n v
  else true

/-- The uniformity field loop steps entrywise. -/
theorem uniformFields_cons (split : Val → List Val) (n : Nat) (k : String)
    (v : Val) (fs : List (String × Val)) :
    uniformFields split n ((k, v) :: fs)
      = (uniformEntry split n v && uniformFields split n fs) := by
  cases v <;> simp [uniformFields, uniformEntry, Val.isObject, Val.isMarked]

/-- The uniformity item loop steps entrywise. -/
theorem uniformItems_cons (split : Val → List Val) (n : Nat) (v : Val)
    (vs : List Val) :
    uniformItems split n (v :: vs)
      = (uniformEntry split n v && uniformItems split n vs) := by
  cases v <;> simp [uniformItems, uniformEntry, Val.isObject, Val.isMarked]

mutual

/-- The record carries at least one `%allot`-marked field value where
`encryptDeep`'s walk will visit it. -/
def containsMarked : Val → Bool
  | .obj fs => cmFields fs
  | .arr xs => cmItems xs
  | _ => false

/-- Field loop of `containsMarked`. -/
def cmFields : List (String × Val) → Bool
  | [] => false
  | (_, .obj gs) :: fs =>
    (if gs.any (fun p => p.1 == "%allot") then true
      else containsMarked (.obj gs)) || cmFields fs
  | (_, .arr xs) :: fs => containsMarked (.arr xs) || cmFields fs
  | _ :: fs => cmFields fs

/-- Item loop of `containsMarked`. -/
def cmItems : List Val → Bool
  | [] => false
  | .obj gs :: vs =>
    (if gs.any (fun p => p.1 == "%allot") then true
      else containsMarked (.obj gs)) || cmItems vs
  | .arr xs :: vs => containsMarked (.arr xs) || cmItems vs
  | _ :: vs => cmItems vs

end

/-- Entry form of `containsMarked`. -/
def cmEntry (v : Val) : Bool :=
  if v.isObject then
    if v.isMarked then true else containsMarked v
  else false

/-- The marked-detection field loop steps entrywise. -/
theorem cmFields_cons (k : String) (v : Val) (fs : List (String × Val)) :
    cmFields ((k, v) :: fs) = (cmEntry v || cmFields fs) := by
  cases v <;> simp [cmFields, cmEntry, Val.isObject, Val.isMarked]

/-- The marked-detection item loop steps entrywise. -/
theorem cmItems_cons (v : Val) (vs : List Val) :
    cmItems (v :: vs) = (cmEntry v || cmItems vs) := by
  cases v <;> simp [cmItems, cmEntry, Val.isObject, Val.isMarked]

mutual

/-- The plaintext record a round trip should reproduce: each
`%allot`-marked field value replaced by its inner plaintext, everything
else kept, along the walk of `encryptDeep`. -/
def plainOf : Val → Val
  | .obj fs => .obj (plainFields fs)
  | .arr xs => .arr (plainItems xs)
  | v => v

/-- Field loop of `plainOf`. -/
def plainFields : List (String × Val) → List (String × Val)
  | [] => []
  | (k, .obj gs) :: fs =>
    (k,
      if gs.any (fun p => p.1 == "%allot") then (Val.obj gs).getF "%allot"
      else plainOf (.obj gs)) :: plainFields fs
  | (k, .arr xs) :: fs => (k, plainOf (.arr xs)) :: plainFields fs
  | (k, v) :: fs => (k, v) :: plainFields fs

/-- Item loop of `plainOf`. -/
def plainItems : List Val → List Val
  | [] => []
  | .obj gs :: vs =>
    (if gs.any (fun p => p.1 == "%allot") then (Val.obj gs).getF "%allot"
      else plainOf (.obj gs)) :: plainItems vs
  | .arr xs :: vs => plainOf (.arr xs) :: plainItems vs
  | v :: vs => v :: plainItems vs

end

/-- Entry form of `plainOf`. -/
def plainEntry (v : Val) : Val :=
  if v.isObject then
    if v.isMarked then v.getF "%allot" else plainOf v
  else v

/-- The plaintext field loop steps entrywise. -/
theorem plainFields_cons (k : String) (v : Val) (fs : List (String × Val)) :
    plainFields ((k, v) :: fs) = (k, plainEntry v) :: plainFields fs := by
  cases v <;> simp [plainFields, plainEntry, Val.isObject, Val.isMarked]

/-- The plaintext item loop steps entrywise. -/
theorem plainItems_cons (v : Val) (vs : List Val) :
    plainItems (v :: vs) = plainEntry v :: plainItems vs := by
  cases v <;> simp [plainItems, plainEntry, Val.isObject, Val.isMarked]

/-! ## SecretVaultWrapper (src/unnamed/part_000) -/

/-- The id pass of `writeToNodes` (part_000 lines 374-379):
`data.map(record => !record._id ? \x7b...record, _id: uuidv4()\x7d : record)`.
`uuids` enumerates the successive values returned by the external
`uuidv4`; `k` counts the calls already made. -/
def addIds (uuids : Nat → String) (k : Nat) : List Val → List Val
  | [] => []
  | r :: rs =>
    if (r.getF "_id").truthy then r :: addIds uuids k rs
    else r.setF "_id" (.str (uuids k)) :: addIds uuids (k + 1) rs

/-- `allotData` (part_000 lines 165-172): one `prepareAndAllot` per
record of the batch, with the wrapper's key already established. -/
def allotData (split : Val → List Val) (data : List Val) : List (List Val) :=
  data.map (fun item => allot (encryptDeep split item))

/-- The per-record share selection of `writeToNodes` (part_000 lines
385-389) and `updateDataToNodes` (lines 512-516):
`encryptedShares.length !== this.nodes.length ? encryptedShares[0] :
encryptedShares[index]`. -/
def selectShare (nodeCount : Nat) (encryptedShares : List Val)
    (index : Nat) : Val :=
  if encryptedShares.length ≠ nodeCount then encryptedShares.getD 0 .undef
  else encryptedShares.getD index (.undef)

/-- `nodeData` computed by `writeDataToNode` (part_000 lines 385-389). -/
def writeNodeData (nodeCount : Nat) (transformed : List (List Val))
    (index : Nat) : List Val :=
  transformed.map (fun shares => selectShare nodeCount shares index)

/-- `const [nodeData] = transformedData.map(...)` in `updateDataToNodes`
(part_000 lines 512-516): the same selection, destructured to its first
element. -/
def updateNodeData (nodeCount : Nat) (transformed : List (List Val))
    (index : Nat) : Val :=
  (transformed.map (fun shares => selectShare nodeCount shares index)).headD
    (.undef)

/-- `array.map((x, index) => f(index, x))` with an explicit start
index. -/
def mapWithIndex (f : Nat → α → β) : Nat → List α → List β
  | _, [] => []
  | i, x :: xs => f i x :: mapWithIndex f (i + 1) xs

/-- One outcome of `Promise.allSettled`. -/
inductive Settled (ε α : Type) where
  | fulfilled (value : α)
  | rejected (reason : ε)
deriving Repr

/-- `Promise.allSettled` over already-determined legs: the settled list
preserves the input order (position `i` settles leg `i`), regardless of
the order in which the underlying promises complete. -/
def allSettled (legs : List (Except ε α)) : List (Settled ε α) :=
  legs.map (fun l => match l with
    | .ok v => .fulfilled v
    | .error e => .rejected e)

/-- The shared shape of every per-node leg (`writeDataToNode`,
`flushDataFromNode`, `readDataFromNode`, `updateDataOnNode`,
`deleteDataFromNode`): run the body (token generation plus
`makeRequest`, abstracted as `body`), fulfilling with
`\x7bresult, node\x7d` and rejecting with the thrown `\x7berror, node\x7d`. -/
def nodeLeg (body : Val → Except Val Val) (node : Val) : Except Val Val :=
  match body node with
  | .ok result => .ok (.obj [("result", result), ("node", node)])
  | .error e => .error (.obj [("error", e), ("node", node)])

/-- The `settledResults.map(...)` step shared by the fan-out operations:
a fulfilled leg becomes `\x7b...value.result, node: value.node, extra keys\x7d`,
a rejected leg becomes `\x7berror: reason.error, node: reason.node\x7d`. -/
def settledResultsMap (extras : List (String × Val))
    (settled : List (Settled Val Val)) : List Val :=
  settled.map (fun s => match s with
    | .fulfilled v =>
      spreadFields (v.getF "result") (("node", v.getF "node") :: extras)
    | .rejected r => .obj [("error", r.getF "error"), ("node", r.getF "node")])

/-- `writeToNodes`'s fan-out and result assembly (part_000 lines
408-428): one leg per configured node, settled concurrently, then mapped
to `\x7b...result, node, schemaId\x7d` / `\x7berror, node\x7d` outcomes.  `body i node`
is the token-plus-request behaviour of node `i`'s leg. -/
def writeToNodesResults (schemaId : Val) (nodes : List Val)
    (body : Nat → Val → Except Val Val) : List Val :=
  settledResultsMap [("schemaId", schemaId)]
    (allSettled (mapWithIndex (fun i node => nodeLeg (body i) node) 0 nodes))

/-- `flushData`'s fan-out and result assembly (part_000 lines 200-219). -/
def flushDataResults (nodes : List Val)
    (body : Val → Except Val Val) : List Val :=
  settledResultsMap []
    (allSettled (nodes.map (fun node => nodeLeg body node)))

/-- `updateDataToNodes`'s fan-out and result assembly (part_000 lines
538-557). -/
def updateDataResults (nodes : List Val)
    (body : Nat → Val → Except Val Val) : List Val :=
  settledResultsMap []
    (allSettled (mapWithIndex (fun i node => nodeLeg (body i) node) 0 nodes))

/-- `deleteDataFromNodes`'s fan-out and result assembly (part_000 lines
584-603). -/
def deleteDataResults (nodes : List Val)
    (body : Val → Except Val Val) : List Val :=
  settledResultsMap []
    (allSettled (nodes.map (fun node => nodeLeg body node)))

/-- One share group built by `readFromNodes` (part_000 lines 475-489):
`\x7bshares: [...], recordIndex: record._id\x7d`. -/
structure ShareGroup where
  shares : List Val
  recordIndex : Val
deriving Repr

/-- One step of the grouping loop (part_000 lines 478-486): find the
first group any of whose shares has the record's `_id` (JS `===` on the
id values) and push the record onto it; otherwise append a fresh group. -/
def pushShare (record : Val) : List ShareGroup → List ShareGroup
  | [] => [⟨[record], record.getF "_id"⟩]
  | g :: gs =>
    if g.shares.any (fun share => share.getF "_id" == record.getF "_id") then
      { g with shares := g.shares ++ [record] } :: gs
    else g :: pushShare record gs

/-- The grouping reduce of `readFromNodes` (part_000 lines 475-489):
outcomes with a truthy `data` field contribute their records in order;
outcomes without one (failed nodes) contribute nothing.  (`data`
payloads are arrays; a truthy non-array `data` is outside the modelled
behaviour — `for...of` would throw on it.) -/
def readRecordGroups (results : List Val) : List ShareGroup :=
  results.foldl (fun acc nodeResult =>
    if (nodeResult.getF "data").truthy then
      (nodeResult.getF "data").itemsOf.foldl (fun a r => pushShare r a) acc
    else acc) []

/-- The reassembly tail of `readFromNodes` (part_000 lines 491-497):
`recordGroups.map(record => unify(record.shares))`, with the wrapper's
recombination function `comb`. -/
def readFromNodesResults (comb : List Val → Val) (results : List Val) :
    List Val :=
  (readRecordGroups results).map (fun g => unifyVals comb g.shares)

/-! ## makeRequest (part_000 lines 114-158)

The `fetch` collaborator is abstracted as a `FetchOutcome`; `JSON.parse`
is abstracted as a `String → Option Val` parameter where `none` stands
for the `SyntaxError` it throws on invalid input.  The two regular
expression probes of the catch block are implemented over character
lists with JavaScript regex semantics (`.` does not cross newlines,
greedy match, leftmost viable start). -/

/-- Digit characters of a number, with fuel for structural recursion
(any fuel above the digit count, e.g. `n + 1`, is enough). -/
def natReprAux : Nat → Nat → List Char
  | 0, _ => []
  | fuel + 1, n =>
    if n < 10 then [Char.ofNat (48 + n)]
    else natReprAux fuel (n / 10) ++ [Char.ofNat (48 + n % 10)]

/-- Decimal rendering of a number as the JS template literal
`"${response.status}"` produces it. -/
def natRepr (n : Nat) : String :=
  String.mk (natReprAux (n + 1) n)

/-- Opening brace character. -/
def lbrace : Char := Char.ofNat 123

/-- Closing brace character. -/
def rbrace : Char := Char.ofNat 125

/-- Match a literal prefix, returning the remainder. -/
def afterLit : List Char → List Char → Option (List Char)
  | [], rest => some rest
  | _ :: _, [] => none
  | l :: ls, c :: cs => if c = l then afterLit ls cs else none

/-- Value of a digit run (`Number.parseInt` on a `\d+` capture). -/
def parseDigits (ds : List Char) : Nat :=
  ds.foldl (fun a c => a * 10 + (c.toNat - 48)) 0

/-- `message.match(/status: (\d+)/)`: first occurrence of the literal
`"status: "` that is directly followed by at least one digit; the
capture is the maximal digit run there. -/
def statusScan : List Char → Option Nat
  | [] => none
  | c :: rest =>
    match afterLit "status: ".toList (c :: rest) with
    | some after =>
      match after.takeWhile Char.isDigit with
      | [] => statusScan rest
      | ds => some (parseDigits ds)
    | none => statusScan rest

/-- `error.message.match(/status: (\d+)/)` on a string. -/
def statusMatch (s : String) : Option Nat :=
  statusScan s.toList

/-- Last position of a closing brace in a line. -/
def lastCloseIdx (cs : List Char) : Option Nat :=
  match cs.reverse.findIdx? (fun c => c = rbrace) with
  | some j => some (cs.length - 1 - j)
  | none => none

/-- `message.match(/body: (\x7b.*\x7d)/)`: first occurrence of the literal
`"body: "` directly followed by an opening brace such that a closing
brace occurs later on the same line; the capture runs greedily to the
last closing brace on that line. -/
def bodyScan : List Char → Option (List Char)
  | [] => none
  | c :: rest =>
    match afterLit ("body: ".toList ++ [lbrace]) (c :: rest) with
    | some after =>
      let line := after.takeWhile (fun ch => ch ≠ '\n')
      match lastCloseIdx line with
      | some k => some (lbrace :: line.take (k + 1))
      | none => bodyScan rest
    | none => bodyScan rest

/-- `error.message.match(/body: (\x7b.*\x7d)/)` on a string, as the captured
substring. -/
def bodyMatch (s : String) : Option String :=
  (bodyScan s.toList).map (fun cs => String.mk cs)

/-- The `status` field of the catch block's error object: the parsed
HTTP status number, or `null` when the message carries none. -/
def statusField (message : String) : Val :=
  match statusMatch message with
  | some n => .num n
  | none => .null

/-- The `error` field of the catch block's error object when no
brace-delimited body was found: `\x7berrors: [error]\x7d` wrapping the thrown
error (modelled by its message). -/
def wrappedError (message : String) : Val :=
  .obj [("errors", .arr [.obj [("message", .str message)]])]

/-- The catch block of `makeRequest` (part_000 lines 144-157): probe the
error message for an HTTP status and a brace-delimited body, then build
`\x7bstatus: parsed-or-null, error: JSON.parse(body) / \x7berrors: [error]\x7d\x7d`.
`JSON.parse` of a captured body that is not valid JSON throws — that
exception is not caught anywhere in `makeRequest`, hence the `.error`
branch. -/
def makeRequestCatch (parseJson : String → Option Val) (message : String) :
    Except String Val :=
  match bodyMatch message with
  | some b =>
    match parseJson b with
    | some j => .ok (.obj [("status", statusField message), ("error", j)])
    | none => .error "SyntaxError: Unexpected token in JSON"
  | none =>
    .ok (.obj [("status", statusField message),
               ("error", wrappedError message)])

/-- A completed `fetch` response as `makeRequest` observes it:
`jsonBody = none` models `response.json()` throwing (invalid body),
with `jsonErrMsg` the message of that exception. -/
structure FetchResponse where
  status : Nat
  contentTypeJson : Bool
  jsonBody : Option Val
  jsonErrMsg : String
  textBody : String
deriving Repr

/-- The behaviour of one `fetch` call: rejection (transport failure)
with an error message, or a response. -/
inductive FetchOutcome where
  | reject (message : String)
  | resp (r : FetchResponse)
deriving Repr

/-- `response.ok`: status in the 200-299 range. -/
def respOk (status : Nat) : Bool :=
  200 ≤ status && status ≤ 299

/-- `makeRequest` (part_000 lines 114-158) as a function of the fetch
outcome.  A non-2xx response throws
`"HTTP error! status: S, body: T"` into the catch block; a 2xx JSON
response returns `\x7bstatus: response.status, ...data\x7d` (the spread comes
after the status key and overrides it if the body carries one); a 2xx
non-JSON response returns `\x7bstatus\x7d`. -/
def makeRequest (parseJson : String → Option Val) (outcome : FetchOutcome) :
    Except String Val :=
  match outcome with
  | .reject m => makeRequestCatch parseJson m
  | .resp r =>
    if respOk r.status then
      if r.contentTypeJson then
        match r.jsonBody with
        | some d => .ok (spreadFields (.obj [("status", .num r.status)]) d.fieldsOf)
        | none => makeRequestCatch parseJson r.jsonErrMsg
      else .ok (.obj [("status", .num r.status)])
    else
      makeRequestCatch parseJson
        ("HTTP error! status: " ++ natRepr r.status ++ ", body: " ++ r.textBody)

/-! ## Theorems -/

/-- C2: for every write or update and every record whose allotment
output is a shares sequence whose length differs from the number of
configured nodes `n`, node variant `i` receives element 0 of that
sequence verbatim; when the length equals `n`, node variant `i`
receives element `i`. -/
theorem share_selection_fallback (n : Nat) (transformed : List (List Val))
    (i j : Nat) (shares : List Val)
    (hj : transformed[j]? = some shares) :
    (∀ _ : shares.length ≠ n, ∀ h0 : 0 < shares.length,
        (writeNodeData n transformed i)[j]? = some (shares.get ⟨0, h0⟩)
        ∧ updateNodeData n [shares] i = shares.get ⟨0, h0⟩)
    ∧ (∀ _ : shares.length = n, ∀ hi : i < shares.length,
        (writeNodeData n transformed i)[j]? = some (shares.get ⟨i, hi⟩)
        ∧ updateNodeData n [shares] i = shares.get ⟨i, hi⟩) := by
  have hw : (writeNodeData n transformed i)[j]?
      = some (selectShare n shares i) := by
    simp [writeNodeData, List.getElem?_map, hj]
  have hu : updateNodeData n [shares] i = selectShare n shares i := by
    simp [updateNodeData]
  constructor
  · intro hne h0
    have hsel : selectShare n shares i = shares.get ⟨0, h0⟩ := by
      simp only [selectShare, if_pos hne]
      simp [List.getD_eq_getElem?_getD, List.getElem?_eq_getElem h0]
    exact ⟨by rw [hw, hsel], by rw [hu, hsel]⟩
  · intro heq hi
    have hsel : selectShare n shares i = shares.get ⟨i, hi⟩ := by
      simp only [selectShare, if_neg (show ¬shares.length ≠ n by omega)]
      simp [List.getD_eq_getElem?_getD, List.getElem?_eq_getElem hi]
    exact ⟨by rw [hw, hsel], by rw [hu, hsel]⟩

/-- Witness for C2 at a concrete batch: two shares for three nodes
triggers the fallback to element 0; a three-share sequence sends
element 1 to node 1. -/
theorem share_selection_fallback_witness :
    ((writeNodeData 3 [[.str "a", .str "b"]] 1)[0]? = some (.str "a")
      ∧ updateNodeData 3 [[.str "a", .str "b"]] 1 = .str "a")
    ∧ ((writeNodeData 3 [[.str "x", .str "y", .str "z"]] 1)[0]?
        = some (.str "y")
      ∧ updateNodeData 3 [[.str "x", .str "y", .str "z"]] 1 = .str "y") :=
  ⟨(share_selection_fallback 3 [[.str "a", .str "b"]] 1 0 _ rfl).1
      (by decide) (by decide),
    (share_selection_fallback 3 [[.str "x", .str "y", .str "z"]] 1 0 _ rfl).2
      (by decide) (by decide)⟩

/-- C6 (amended): every operation of an engine whose key material is
absent — any instance constructed without a directly supplied secret
key, before `init` completes — fails with `NotInitialized`. -/
theorem uninitialized_ops_fail {K : Type} (enc : K → Val → List Val)
    (dec : K → List Val → Val) (comb : K → List Val → Val)
    (s : NilQLWrapper K) (h : s.secretKey = none) (data : Val)
    (shares : List Val) :
    NilQLWrapper.encrypt enc s data = .error .notInitialized
    ∧ NilQLWrapper.decrypt dec s shares = .error .notInitialized
    ∧ NilQLWrapper.unify comb s shares = .error .notInitialized
    ∧ NilQLWrapper.prepareAndAllot enc s data = .error .notInitialized := by
  refine ⟨?_, ?_, ?_, ?_⟩ <;>
    simp [NilQLWrapper.encrypt, NilQLWrapper.decrypt, NilQLWrapper.unify,
      NilQLWrapper.prepareAndAllot, h]

/-- Witness for C6 (amended) on a concrete key-less instance (even one
holding a seed: the seed only takes effect inside `init`). -/
theorem uninitialized_ops_fail_witness :
    NilQLWrapper.encrypt (fun (_ : Unit) v => [v])
      ⟨none, some "seed", KeyType.CLUSTER⟩ (.str "x")
      = .error .notInitialized
    ∧ NilQLWrapper.decrypt (fun (_ : Unit) l => l.headD .undef)
      ⟨none, some "seed", KeyType.CLUSTER⟩ []
      = .error .notInitialized
    ∧ NilQLWrapper.unify (fun (_ : Unit) l => l.headD .undef)
      ⟨none, some "seed", KeyType.CLUSTER⟩ []
      = .error .notInitialized
    ∧ NilQLWrapper.prepareAndAllot (fun (_ : Unit) v => [v])
      ⟨none, some "seed", KeyType.CLUSTER⟩ (.str "x")
      = .error .notInitialized :=
  uninitialized_ops_fail (fun _ v => [v]) (fun _ l => l.headD .undef)
    (fun _ l => l.headD .undef) ⟨none, some "seed", KeyType.CLUSTER⟩ rfl
    (.str "x") []

/-- C6 counterexample: an engine constructed with a directly supplied
secret key (third constructor argument) succeeds at encrypt, unify and
prepareAndAllot although `init()` has never run — the guard only checks
key presence, so the claim "calling split/recombine/prepareAndAllot
before initialization has completed fails with NotInitialized" is false
for such instances. -/
theorem uninitialized_ops_fail_counterexample :
    NilQLWrapper.encrypt (fun (_ : Unit) v => [v])
      ⟨some (), none, KeyType.CLUSTER⟩ (.str "x") = .ok [.str "x"]
    ∧ NilQLWrapper.unify (fun (_ : Unit) l => l.headD .undef)
      ⟨some (), none, KeyType.CLUSTER⟩ [.str "x"] = .ok (.str "x")
    ∧ NilQLWrapper.prepareAndAllot (fun (_ : Unit) v => [v])
      ⟨some (), none, KeyType.CLUSTER⟩ (.obj []) = .ok [.obj []] :=
  ⟨rfl, rfl, rfl⟩

/-- C7 (amended): initialization of an engine configured with a key
type that is neither `cluster` nor `secret` fails with
`UnsupportedKeyType` — provided no secret key was supplied and no
truthy seed is present — and the failing `init` leaves the instance
exactly as it was (the throw happens before any assignment). -/
theorem unsupported_keytype_init_fails {K : Type} (genSeed : String → K)
    (genSecret genCluster : K) (s : NilQLWrapper K)
    (hkey : s.secretKey = none)
    (hseed : s.secretKeySeed = none ∨ s.secretKeySeed = some "")
    (ht1 : s.keyType ≠ KeyType.SECRET) (ht2 : s.keyType ≠ KeyType.CLUSTER) :
    NilQLWrapper.init genSeed genSecret genCluster s
      = (some .unsupportedKeyType, s) := by
  unfold NilQLWrapper.init
  rcases hseed with h | h <;> simp [h, hkey, ht1, ht2]

/-- Witness for C7 (amended) at a concrete misconfigured instance. -/
theorem unsupported_keytype_init_fails_witness :
    NilQLWrapper.init (fun sd => "seeded:" ++ sd) "sk" "ck"
      ⟨none, none, "bogus"⟩
      = (some .unsupportedKeyType, ⟨none, none, "bogus"⟩) :=
  unsupported_keytype_init_fails (fun sd => "seeded:" ++ sd) "sk" "ck"
    ⟨none, none, "bogus"⟩ rfl (Or.inl rfl) (by decide) (by decide)

/-- C7 counterexample: an engine configured with a key type that is
neither `cluster` nor `secret` but carrying a seed initializes
successfully — the seed branch of `init` runs before the key-type
switch, so no `UnsupportedKeyType` error is raised, contradicting the
claim that such configurations always fail at initialization. -/
theorem unsupported_keytype_init_fails_counterexample :
    NilQLWrapper.init (fun sd => "seeded:" ++ sd) "sk" "ck"
      ⟨none, some "feed", "bogus"⟩
      = (none, ⟨some "seeded:feed", some "feed", "bogus"⟩) := rfl

/-- Length of an indexed map. -/
theorem mapWithIndex_length (f : Nat → α → β) (s : Nat) (l : List α) :
    (mapWithIndex f s l).length = l.length := by
  induction l generalizing s with
  | nil => rfl
  | cons x xs ih => simp [mapWithIndex, ih]

/-- Element `j` of an indexed map applies `f (s + j)`. -/
theorem mapWithIndex_getElem? (f : Nat → α → β) (s : Nat) (l : List α)
    (j : Nat) :
    (mapWithIndex f s l)[j]? = (l[j]?).map (f (s + j)) := by
  induction l generalizing s j with
  | nil => simp [mapWithIndex]
  | cons x xs ih =>
    cases j with
    | zero => simp [mapWithIndex]
    | succ j =>
      have harith : s + 1 + j = s + (j + 1) := by omega
      simp only [mapWithIndex, List.getElem?_cons_succ, ih (s + 1) j, harith]

/-- Element `i` of an index-passing settled fan-out, as a function of
node `i` and leg `i` alone. -/
theorem settled_fanout_elem (extras : List (String × Val))
    (g : Nat → Val → Except Val Val) (s : Nat) (nodes : List Val)
    (i : Nat) (node : Val) (hi : nodes[i]? = some node) :
    (settledResultsMap extras
      (allSettled (mapWithIndex (fun j nd => nodeLeg (g j) nd) s nodes)))[i]?
    = some (match g (s + i) node with
        | .ok result => spreadFields result (("node", node) :: extras)
        | .error e => .obj [("error", e), ("node", node)]) := by
  simp only [settledResultsMap, allSettled, List.getElem?_map,
    mapWithIndex_getElem?, hi, Option.map_some]
  cases hg : g (s + i) node <;> simp [nodeLeg, hg, Val.getF]

/-- Element `i` of an index-blind settled fan-out. -/
theorem settled_fanout_elem_plain (extras : List (String × Val))
    (g : Val → Except Val Val) (nodes : List Val)
    (i : Nat) (node : Val) (hi : nodes[i]? = some node) :
    (settledResultsMap extras
      (allSettled (nodes.map (fun nd => nodeLeg g nd))))[i]?
    = some (match g node with
        | .ok result => spreadFields result (("node", node) :: extras)
        | .error e => .obj [("error", e), ("node", node)]) := by
  simp only [settledResultsMap, allSettled, List.getElem?_map, hi,
    Option.map_some]
  cases hg : g node <;> simp [nodeLeg, hg, Val.getF]

/-- C3: every fan-out (write, update, delete, flush) returns exactly
one outcome per configured node; outcome `i` is a function of node
`i`'s descriptor and node `i`'s leg alone (so it corresponds to node
`i`'s configured position and is unaffected by any other node's
failure); a failing leg `k` is recorded as outcome `k` carrying node
`k`'s descriptor; and the fan-out itself is a total function — no
per-node failure escapes it. -/
theorem fanout_outcomes (schemaId : Val) (nodes : List Val)
    (body : Nat → Val → Except Val Val) (bodyF : Val → Except Val Val)
    (i : Nat) (node : Val) (hi : nodes[i]? = some node) :
    ((writeToNodesResults schemaId nodes body).length = nodes.length
      ∧ (updateDataResults nodes body).length = nodes.length
      ∧ (flushDataResults nodes bodyF).length = nodes.length
      ∧ (deleteDataResults nodes bodyF).length = nodes.length)
    ∧ ((writeToNodesResults schemaId nodes body)[i]?
        = some (match body i node with
            | .ok result =>
              spreadFields result [("node", node), ("schemaId", schemaId)]
            | .error e => .obj [("error", e), ("node", node)])
      ∧ (updateDataResults nodes body)[i]?
        = some (match body i node with
            | .ok result => spreadFields result [("node", node)]
            | .error e => .obj [("error", e), ("node", node)])
      ∧ (flushDataResults nodes bodyF)[i]?
        = some (match bodyF node with
            | .ok result => spreadFields result [("node", node)]
            | .error e => .obj [("error", e), ("node", node)])
      ∧ (deleteDataResults nodes bodyF)[i]?
        = some (match bodyF node with
            | .ok result => spreadFields result [("node", node)]
            | .error e => .obj [("error", e), ("node", node)]))
    ∧ (∀ e, body i node = .error e →
        (writeToNodesResults schemaId nodes body)[i]?
          = some (.obj [("error", e), ("node", node)]))
    ∧ (∀ body₂ : Nat → Val → Except Val Val, body₂ i node = body i node →
        (writeToNodesResults schemaId nodes body₂)[i]?
          = (writeToNodesResults schemaId nodes body)[i]?) := by
  have hlen : ∀ (extras : List (String × Val))
      (legs : List (Except Val Val)),
      (settledResultsMap extras (allSettled legs)).length = legs.length := by
    intro extras legs
    simp [settledResultsMap, allSettled]
  refine ⟨⟨?_, ?_, ?_, ?_⟩, ⟨?_, ?_, ?_, ?_⟩, ?_, ?_⟩
  · simp [writeToNodesResults, hlen, mapWithIndex_length]
  · simp [updateDataResults, hlen, mapWithIndex_length]
  · simp [flushDataResults, hlen]
  · simp [deleteDataResults, hlen]
  · simpa using settled_fanout_elem [("schemaId", schemaId)] body 0 nodes i node hi
  · simpa using settled_fanout_elem [] body 0 nodes i node hi
  · simpa using settled_fanout_elem_plain [] bodyF nodes i node hi
  · simpa using settled_fanout_elem_plain [] bodyF nodes i node hi
  · intro e he
    have h := settled_fanout_elem [("schemaId", schemaId)] body 0 nodes i node hi
    simpa [he] using h
  · intro body₂ hb
    have h₁ := settled_fanout_elem [("schemaId", schemaId)] body 0 nodes i node hi
    have h₂ := settled_fanout_elem [("schemaId", schemaId)] body₂ 0 nodes i node hi
    simp only [writeToNodesResults]
    rw [h₁, h₂]
    simp [hb]

/-- Witness for C3: a three-node fan-out in which node 1's leg fails
yields three outcomes in node order, with the failure recorded at
position 1 carrying node 1's descriptor. -/
theorem fanout_outcomes_witness :
    (writeToNodesResults (.str "sid")
        [.str "n0", .str "n1", .str "n2"]
        (fun i _ => if i = 1 then .error (.str "boom")
          else .ok (.obj [("ok", .bool true)]))).length = 3
    ∧ (writeToNodesResults (.str "sid")
        [.str "n0", .str "n1", .str "n2"]
        (fun i _ => if i = 1 then .error (.str "boom")
          else .ok (.obj [("ok", .bool true)])))[1]?
      = some (.obj [("error", .str "boom"), ("node", .str "n1")]) := by
  have h := fanout_outcomes (.str "sid")
    [.str "n0", .str "n1", .str "n2"]
    (fun i _ => if i = 1 then .error (.str "boom")
      else .ok (.obj [("ok", .bool true)]))
    (fun _ => .ok (.obj [])) 1 (.str "n1") rfl
  exact ⟨h.1.1, h.2.2.1 (.str "boom") rfl⟩

/-- Spec §4.4 step 1, stated in the spec's own terms: flatten the
record lists of the outcomes carrying a (truthy) `data` payload into
one stream, in node order; an outcome without one — a failed node —
contributes no records. -/
def specFlattenRecords : List Val → List Val
  | [] => []
  | r :: rs =>
    (if (r.getF "data").truthy then (r.getF "data").itemsOf else [])
      ++ specFlattenRecords rs

/-- Spec §4.4 step 2, stated in the spec's own terms: group the
flattened stream by a linear first-match scan — each record joins the
first existing group containing a record with its `_id`, otherwise
opens a new group. -/
def specGroups (records : List Val) : List ShareGroup :=
  records.foldl (fun acc r => pushShare r acc) []

/-- The grouping reduce of `readFromNodes` computes exactly the
flatten-then-group pipeline of the spec. -/
theorem readRecordGroups_eq (results : List Val) :
    readRecordGroups results = specGroups (specFlattenRecords results) := by
  suffices h : ∀ rs acc,
      rs.foldl (fun acc nodeResult =>
        if (nodeResult.getF "data").truthy then
          (nodeResult.getF "data").itemsOf.foldl (fun a r => pushShare r a) acc
        else acc) acc
      = (specFlattenRecords rs).foldl (fun acc r => pushShare r acc) acc by
    simpa [readRecordGroups, specGroups] using h results []
  intro rs
  induction rs with
  | nil => intro acc; rfl
  | cons r rs ih =>
    intro acc
    by_cases hr : (r.getF "data").truthy
    · simp [specFlattenRecords, hr, List.foldl_append, ih]
    · simp [specFlattenRecords, hr, ih]

/-- C4: read reassembly flattens the record lists of the successful
per-node outcomes only (an outcome without records — a failed node —
contributes nothing and can be dropped from the outcome list without
changing the stream), groups the flattened stream by `_id` with the
linear first-match scan, and produces exactly one recombined record
per group, each obtained by one `unify` call on that group's full
share list. -/
theorem read_reassembly (comb : List Val → Val) (results : List Val)
    (pre post : List Val) (failed : Val)
    (hfail : (failed.getF "data").truthy = false) :
    readFromNodesResults comb results
      = (specGroups (specFlattenRecords results)).map
          (fun g => unifyVals comb g.shares)
    ∧ (readFromNodesResults comb results).length
      = (specGroups (specFlattenRecords results)).length
    ∧ specFlattenRecords (pre ++ failed :: post)
      = specFlattenRecords (pre ++ post) := by
  refine ⟨?_, ?_, ?_⟩
  · simp [readFromNodesResults, readRecordGroups_eq]
  · simp [readFromNodesResults, readRecordGroups_eq]
  · induction pre with
    | nil => simp [specFlattenRecords, hfail]
    | cons p ps ih => simp [specFlattenRecords, ih]

/-- Witness for C4: two nodes return a share of record `"abc"`, a
third outcome carries no `data` (failed node); reassembly yields one
group with both shares and one unified record. -/
theorem read_reassembly_witness :
    readFromNodesResults (fun l => l.headD .undef)
      [.obj [("data", .arr [.obj [("_id", .str "abc"), ("v", .str "s1")]]),
             ("node", .str "n0")],
       .obj [("error", .str "down"), ("node", .str "n1")],
       .obj [("data", .arr [.obj [("_id", .str "abc"), ("v", .str "s2")]]),
             ("node", .str "n2")]]
      = (specGroups (specFlattenRecords
          [.obj [("data", .arr [.obj [("_id", .str "abc"), ("v", .str "s1")]]),
                 ("node", .str "n0")],
           .obj [("error", .str "down"), ("node", .str "n1")],
           .obj [("data", .arr [.obj [("_id", .str "abc"), ("v", .str "s2")]]),
                 ("node", .str "n2")]])).map
          (fun g => unifyVals (fun l => l.headD .undef) g.shares)
    ∧ specFlattenRecords
        [.obj [("data", .arr [.obj [("_id", .str "abc")]])],
         .obj [("error", .str "down")],
         .obj [("data", .arr [.obj [("_id", .str "xyz")]])]]
      = specFlattenRecords
        [.obj [("data", .arr [.obj [("_id", .str "abc")]])],
         .obj [("data", .arr [.obj [("_id", .str "xyz")]])]] :=
  ⟨(read_reassembly (fun l => l.headD .undef) _
      [.obj [("data", .arr [.obj [("_id", .str "abc")]])]]
      [.obj [("data", .arr [.obj [("_id", .str "xyz")]])]]
      (.obj [("error", .str "down")]) rfl).1,
    (read_reassembly (fun l => l.headD .undef) []
      [.obj [("data", .arr [.obj [("_id", .str "abc")]])]]
      [.obj [("data", .arr [.obj [("_id", .str "xyz")]])]]
      (.obj [("error", .str "down")]) rfl).2.2⟩

/-- Number of records in a prefix whose `_id` is falsy — each one
consumes one `uuidv4()` draw in the id pass. -/
def falsyCount (l : List Val) : Nat :=
  (l.filter (fun r => !(r.getF "_id").truthy)).length

/-- Element `j` of the id pass: a record with truthy `_id` passes
through; one with falsy `_id` gets the uuid draw matching the number of
falsy records before it. -/
theorem addIds_getElem? (uuids : Nat → String) (k : Nat) (data : List Val)
    (j : Nat) (r : Val) (hj : data[j]? = some r) :
    (addIds uuids k data)[j]?
      = some (if (r.getF "_id").truthy then r
          else r.setF "_id" (.str (uuids (k + falsyCount (data.take j))))) := by
  induction data generalizing k j with
  | nil => simp at hj
  | cons d ds ih =>
    cases j with
    | zero =>
      have hdr : d = r := by simpa using hj
      subst hdr
      by_cases hd : (d.getF "_id").truthy <;>
        simp [addIds, hd, falsyCount]
    | succ j =>
      have hj' : ds[j]? = some r := by simpa using hj
      by_cases hd : (d.getF "_id").truthy
      · have hcount : falsyCount ((d :: ds).take (j + 1))
            = falsyCount (ds.take j) := by
          simp [falsyCount, List.take_succ_cons, List.filter_cons, hd]
        have hstep := ih k j hj'
        simp only [addIds, hd, if_true, List.getElem?_cons_succ, hcount]
        exact hstep
      · have hcount : falsyCount ((d :: ds).take (j + 1))
            = 1 + falsyCount (ds.take j) := by
          simp [falsyCount, List.take_succ_cons, List.filter_cons, hd]
          omega
        have hstep := ih (k + 1) j hj'
        have harith : k + (1 + falsyCount (ds.take j))
            = k + 1 + falsyCount (ds.take j) := by omega
        simp only [addIds, hd, Bool.false_eq_true, if_false,
          List.getElem?_cons_succ, hcount, harith]
        exact hstep

/-- The falsy count over prefixes strictly grows past a falsy record. -/
theorem falsyCount_take_lt (data : List Val) (j1 j2 : Nat) (r1 : Val)
    (h1 : data[j1]? = some r1) (hf : (r1.getF "_id").truthy = false)
    (hlt : j1 < j2) :
    falsyCount (data.take j1) < falsyCount (data.take j2) := by
  induction data generalizing j1 j2 with
  | nil => simp at h1
  | cons d ds ih =>
    cases j1 with
    | zero =>
      simp only [List.getElem?_cons_zero, Option.some.injEq] at h1
      subst h1
      obtain ⟨m, rfl⟩ : ∃ m, j2 = m + 1 := ⟨j2 - 1, by omega⟩
      simp [falsyCount, List.take_succ_cons, List.filter_cons, hf]
    | succ j1 =>
      simp only [List.getElem?_cons_succ] at h1
      obtain ⟨m, rfl⟩ : ∃ m, j2 = m + 1 := ⟨j2 - 1, by omega⟩
      have hm : j1 < m := by omega
      have := ih j1 m h1 hm
      by_cases hd : (d.getF "_id").truthy <;>
        simp [falsyCount, List.take_succ_cons, List.filter_cons, hd] at * <;>
        omega

/-- Property read over an object built by a key-preserving entrywise
map. -/
theorem Val.getF_obj_map (f : Val → Val) (fs : List (String × Val))
    (key : String) :
    (Val.obj (fs.map (fun p => (p.1, f p.2)))).getF key
      = match fs.find? (fun p => p.1 == key) with
        | some p => f p.2
        | none => .undef := by
  induction fs with
  | nil => simp [Val.getF]
  | cons p ps ih =>
    by_cases hp : p.1 == key <;>
      simp [Val.getF, List.find?_cons, hp] at ih ⊢ <;>
      simpa [Val.getF] using ih

/-- The field walk of `encryptDeep` is the entrywise map. -/
theorem encryptFields_eq_map (split : Val → List Val)
    (fs : List (String × Val)) :
    encryptFields split fs = fs.map (fun p => (p.1, encryptEntry split p.2)) := by
  induction fs with
  | nil => rfl
  | cons p ps ih => cases p; rw [encryptFields_cons, ih]; rfl

/-- The item walk of `encryptDeep` is the elementwise map. -/
theorem encryptItems_eq_map (split : Val → List Val) (vs : List Val) :
    encryptItems split vs = vs.map (encryptEntry split) := by
  induction vs with
  | nil => rfl
  | cons v ws ih => rw [encryptItems_cons, ih]; rfl

/-- The field walk of `allotVariant` is the entrywise map. -/
theorem variantFields_eq_map (i : Nat) (fs : List (String × Val)) :
    variantFields i fs = fs.map (fun p => (p.1, allotVariant i p.2)) := by
  induction fs with
  | nil => rfl
  | cons p ps ih => cases p; simp [variantFields, ih]

/-- The item walk of `allotVariant` is the elementwise map. -/
theorem variantItems_eq_map (i : Nat) (vs : List Val) :
    variantItems i vs = vs.map (allotVariant i) := by
  induction vs with
  | nil => rfl
  | cons v ws ih => simp [variantItems, ih]

/-- The walk preserves the `%allot` key test on a field list. -/
theorem encryptFields_any_marker (split : Val → List Val)
    (fs : List (String × Val)) :
    (encryptFields split fs).any (fun p => p.1 == "%allot")
      = fs.any (fun p => p.1 == "%allot") := by
  rw [encryptFields_eq_map, List.any_map]
  rfl

/-- Walk-then-variant on a field list is the composed entrywise map. -/
theorem variantFields_encryptFields (split : Val → List Val) (i : Nat)
    (fs : List (String × Val)) :
    variantFields i (encryptFields split fs)
      = fs.map (fun p => (p.1, allotVariant i (encryptEntry split p.2))) := by
  induction fs with
  | nil => rfl
  | cons p ps ih =>
    cases p
    rw [encryptFields_cons]
    simp [variantFields, ih]

/-- A string-valued field of an unmarked record survives the walk and
every node variant unchanged. -/
theorem variant_id_stable (split : Val → List Val) (i : Nat) (u : String)
    (v : Val) (hm : v.isMarked = false) (hid : v.getF "_id" = .str u) :
    (allotVariant i (encryptDeep split v)).getF "_id" = .str u := by
  cases v with
  | obj fs =>
    have hmark : fs.any (fun p => p.1 == "%allot") = false := by
      simpa [Val.isMarked] using hm
    cases hf : fs.find? (fun p => p.1 == "_id") with
    | none => simp [Val.getF, hf] at hid
    | some p =>
      have hp2 : p.2 = .str u := by simpa [Val.getF, hf] using hid
      have hmark' : (encryptFields split fs).any (fun p => p.1 == "%allot")
          = false := by rw [encryptFields_any_marker]; exact hmark
      have hstep : allotVariant i (encryptDeep split (.obj fs))
          = .obj (fs.map (fun p =>
              (p.1, allotVariant i (encryptEntry split p.2)))) := by
        show allotVariant i (.obj (encryptFields split fs)) = _
        simp only [allotVariant, hmark', Bool.false_eq_true, if_false,
          variantFields_encryptFields]
      rw [hstep, Val.getF_obj_map
        (fun w => allotVariant i (encryptEntry split w)) fs "_id", hf]
      show allotVariant i (encryptEntry split p.2) = Val.str u
      rw [hp2]
      rfl
  | arr xs => simp [Val.getF] at hid
  | undef => simp [Val.getF] at hid
  | null => simp [Val.getF] at hid
  | bool b => simp [Val.getF] at hid
  | num n => simp [Val.getF] at hid
  | str s => simp [Val.getF] at hid

/-- C5 (amended): a record of the write batch with a truthy `_id`
passes the id pass unchanged; a record whose `_id` is absent or falsy
receives exactly one generated identifier (the uuid draw matching the
count of falsy-id records before it — a strictly increasing, hence
never reused, draw index), and a string `_id` of an unmarked record
appears identically in every node variant produced by allotment. -/
theorem generated_id (uuids : Nat → String) (k : Nat) (data : List Val)
    (j : Nat) (r : Val) (hj : data[j]? = some r) :
    ((r.getF "_id").truthy = true → (addIds uuids k data)[j]? = some r)
    ∧ ((r.getF "_id").truthy = false →
        (addIds uuids k data)[j]?
          = some (r.setF "_id"
              (.str (uuids (k + falsyCount (data.take j))))))
    ∧ (∀ j2, (r.getF "_id").truthy = false → j < j2 →
        falsyCount (data.take j) < falsyCount (data.take j2))
    ∧ (∀ split (i : Nat) (u : String) (v : Val), v.isMarked = false →
        v.getF "_id" = .str u →
        (allotVariant i (encryptDeep split v)).getF "_id" = .str u) := by
  refine ⟨?_, ?_, ?_, ?_⟩
  · intro ht
    simpa [ht] using addIds_getElem? uuids k data j r hj
  · intro hf
    simpa [hf] using addIds_getElem? uuids k data j r hj
  · intro j2 hf hlt
    exact falsyCount_take_lt data j j2 r hj hf hlt
  · intro split i u v hm hid
    exact variant_id_stable split i u v hm hid

/-- Witness for C5 (amended): a concrete batch of a kept record and a
record without `_id`, plus the variant stability of the generated id. -/
theorem generated_id_witness :
    (addIds (fun n => String.mk [Char.ofNat (65 + n)]) 0
      [Val.obj [("_id", .str "keep")], Val.obj [("m", .str "hi")]])[0]?
      = some (.obj [("_id", .str "keep")])
    ∧ (addIds (fun n => String.mk [Char.ofNat (65 + n)]) 0
      [Val.obj [("_id", .str "keep")], Val.obj [("m", .str "hi")]])[1]?
      = some ((Val.obj [("m", .str "hi")]).setF "_id"
          (.str ((fun n => String.mk [Char.ofNat (65 + n)])
            (0 + falsyCount ([Val.obj [("_id", .str "keep")],
              Val.obj [("m", .str "hi")]].take 1)))))
    ∧ (allotVariant 2 (encryptDeep (fun v => [v, v, v])
        (.obj [("_id", .str "A"), ("email", .obj [("%allot", .str "x")])]))).getF "_id"
      = .str "A" := by
  have h0 := generated_id (fun n => String.mk [Char.ofNat (65 + n)]) 0
    [Val.obj [("_id", .str "keep")], Val.obj [("m", .str "hi")]]
    0 (Val.obj [("_id", .str "keep")]) rfl
  have h1 := generated_id (fun n => String.mk [Char.ofNat (65 + n)]) 0
    [Val.obj [("_id", .str "keep")], Val.obj [("m", .str "hi")]]
    1 (Val.obj [("m", .str "hi")]) rfl
  exact ⟨h0.1 rfl, h1.2.1 rfl,
    h1.2.2.2 (fun v => [v, v, v]) 2 "A"
      (.obj [("_id", .str "A"), ("email", .obj [("%allot", .str "x")])])
      rfl rfl⟩

/-- C5 counterexample: a record that already has an `_id` — the empty
string — does not keep it: the pass tests `!record._id` (truthiness,
not presence), so the falsy `_id` is replaced by a fresh identifier. -/
theorem generated_id_counterexample :
    addIds (fun _ => "fresh") 0 [Val.obj [("_id", .str "")]]
      = [Val.obj [("_id", .str "fresh")]]
    ∧ Val.str "fresh" ≠ Val.str "" := by
  refine ⟨rfl, by simp⟩

mutual

/-- Spec-side characterization of the allotment walk (claim C8, spec
§4.2), one introduction rule per clause: a non-object value is returned
as-is; an object maps to an object over the same keys; a list maps to a
list of the same length — object versus list shape is preserved at
every level. -/
inductive WalkRel (split : Val → List Val) : Val → Val → Prop where
  | leaf (v : Val) : v.isObject = false → WalkRel split v v
  | obj (fs gs : List (String × Val)) :
      WFieldsRel split fs gs → WalkRel split (.obj fs) (.obj gs)
  | arr (xs ys : List Val) :
      WItemsRel split xs ys → WalkRel split (.arr xs) (.arr ys)

/-- Field lists relate entrywise under the same field names. -/
inductive WFieldsRel (split : Val → List Val) :
    List (String × Val) → List (String × Val) → Prop where
  | nil : WFieldsRel split [] []
  | cons (k : String) (v w : Val) (fs gs : List (String × Val)) :
      WEntryRel split v w → WFieldsRel split fs gs →
      WFieldsRel split ((k, v) :: fs) ((k, w) :: gs)

/-- Item lists relate elementwise. -/
inductive WItemsRel (split : Val → List Val) :
    List Val → List Val → Prop where
  | nil : WItemsRel split [] []
  | cons (v w : Val) (vs ws : List Val) :
      WEntryRel split v w → WItemsRel split vs ws →
      WItemsRel split (v :: vs) (w :: ws)

/-- One entry of the walk: a non-object leaf value is copied unchanged;
an object value carrying the `%allot` marker is replaced by the
marker-wrapped split of its inner value; an unmarked object or array
value is recursed into structurally. -/
inductive WEntryRel (split : Val → List Val) : Val → Val → Prop where
  | plain (v : Val) : v.isObject = false → WEntryRel split v v
  | marked (v : Val) : v.isMarked = true →
      WEntryRel split v (.obj [("%allot", .arr (split (v.getF "%allot")))])
  | container (v w : Val) : v.isObject = true → v.isMarked = false →
      WalkRel split v w → WEntryRel split v w

end

mutual

/-- Spec-side characterization of node variant `i` (claim C8, spec
§4.2): same shape-preservation clauses as the walk. -/
inductive VRel (split : Val → List Val) (i : Nat) : Val → Val → Prop where
  | leaf (v : Val) : v.isObject = false → VRel split i v v
  | obj (fs gs : List (String × Val)) :
      VFieldsRel split i fs gs → VRel split i (.obj fs) (.obj gs)
  | arr (xs ys : List Val) :
      VItemsRel split i xs ys → VRel split i (.arr xs) (.arr ys)

/-- Field lists of variant `i` relate entrywise under the same field
names. -/
inductive VFieldsRel (split : Val → List Val) (i : Nat) :
    List (String × Val) → List (String × Val) → Prop where
  | nil : VFieldsRel split i [] []
  | cons (k : String) (v w : Val) (fs gs : List (String × Val)) :
      VEntryRel split i v w → VFieldsRel split i fs gs →
      VFieldsRel split i ((k, v) :: fs) ((k, w) :: gs)

/-- Item lists of variant `i` relate elementwise. -/
inductive VItemsRel (split : Val → List Val) (i : Nat) :
    List Val → List Val → Prop where
  | nil : VItemsRel split i [] []
  | cons (v w : Val) (vs ws : List Val) :
      VEntryRel split i v w → VItemsRel split i vs ws →
      VItemsRel split i (v :: vs) (w :: ws)

/-- One entry of node variant `i`: a non-object leaf is carried
unchanged into the variant; a marked object value holds share `i` of
the split of its inner value, still wrapped with the marker tag under
the same field name; an unmarked container is recursed into. -/
inductive VEntryRel (split : Val → List Val) (i : Nat) : Val → Val → Prop where
  | plain (v : Val) : v.isObject = false → VEntryRel split i v v
  | marked (v : Val) : v.isMarked = true →
      VEntryRel split i v
        (.obj [("%allot", shareAt (.arr (split (v.getF "%allot"))) i)])
  | container (v w : Val) : v.isObject = true → v.isMarked = false →
      VRel split i v w → VEntryRel split i v w

end

mutual

/-- The walk `encryptDeep` realizes the spec-side relation. -/
theorem walkRel_enc (split : Val → List Val) :
    ∀ v, WalkRel split v (encryptDeep split v)
  | .obj fs => WalkRel.obj _ _ (wFieldsRel_enc split fs)
  | .arr xs => WalkRel.arr _ _ (wItemsRel_enc split xs)
  | .undef => WalkRel.leaf _ rfl
  | .null => WalkRel.leaf _ rfl
  | .bool _ => WalkRel.leaf _ rfl
  | .num _ => WalkRel.leaf _ rfl
  | .str _ => WalkRel.leaf _ rfl

/-- The field loop realizes the entrywise relation. -/
theorem wFieldsRel_enc (split : Val → List Val) :
    ∀ fs, WFieldsRel split fs (encryptFields split fs)
  | [] => WFieldsRel.nil
  | (k, .obj gs) :: fs => by
    rw [encryptFields_cons]
    refine WFieldsRel.cons k _ _ fs _ ?_ (wFieldsRel_enc split fs)
    by_cases hm : (Val.obj gs).isMarked
    · rw [show encryptEntry split (.obj gs)
          = .obj [("%allot", .arr (split ((Val.obj gs).getF "%allot")))] by
        simp [encryptEntry, Val.isObject, hm]]
      exact WEntryRel.marked _ hm
    · rw [show encryptEntry split (.obj gs) = encryptDeep split (.obj gs) by
        simp [encryptEntry, Val.isObject, hm]]
      exact WEntryRel.container _ _ rfl (by simpa using hm)
        (walkRel_enc split (.obj gs))
  | (k, .arr xs) :: fs => by
    rw [encryptFields_cons]
    refine WFieldsRel.cons k _ _ fs _ ?_ (wFieldsRel_enc split fs)
    rw [show encryptEntry split (.arr xs) = encryptDeep split (.arr xs) by
      simp [encryptEntry, Val.isObject, Val.isMarked]]
    exact WEntryRel.container _ _ rfl rfl (walkRel_enc split (.arr xs))
  | (k, .undef) :: fs => by
    rw [encryptFields_cons]
    exact WFieldsRel.cons k _ _ fs _ (WEntryRel.plain _ rfl)
      (wFieldsRel_enc split fs)
  | (k, .null) :: fs => by
    rw [encryptFields_cons]
    exact WFieldsRel.cons k _ _ fs _ (WEntryRel.plain _ rfl)
      (wFieldsRel_enc split fs)
  | (k, .bool b) :: fs => by
    rw [encryptFields_cons]
    exact WFieldsRel.cons k _ _ fs _ (WEntryRel.plain _ rfl)
      (wFieldsRel_enc split fs)
  | (k, .num n) :: fs => by
    rw [encryptFields_cons]
    exact WFieldsRel.cons k _ _ fs _ (WEntryRel.plain _ rfl)
      (wFieldsRel_enc split fs)
  | (k, .str s) :: fs => by
    rw [encryptFields_cons]
    exact WFieldsRel.cons k _ _ fs _ (WEntryRel.plain _ rfl)
      (wFieldsRel_enc split fs)

/-- The item loop realizes the elementwise relation. -/
theorem wItemsRel_enc (split : Val → List Val) :
    ∀ vs, WItemsRel split vs (encryptItems split vs)
  | [] => WItemsRel.nil
  | .obj gs :: vs => by
    rw [encryptItems_cons]
    refine WItemsRel.cons _ _ vs _ ?_ (wItemsRel_enc split vs)
    by_cases hm : (Val.obj gs).isMarked
    · rw [show encryptEntry split (.obj gs)
          = .obj [("%allot", .arr (split ((Val.obj gs).getF "%allot")))] by
        simp [encryptEntry, Val.isObject, hm]]
      exact WEntryRel.marked _ hm
    · rw [show encryptEntry split (.obj gs) = encryptDeep split (.obj gs) by
        simp [encryptEntry, Val.isObject, hm]]
      exact WEntryRel.container _ _ rfl (by simpa using hm)
        (walkRel_enc split (.obj gs))
  | .arr xs :: vs => by
    rw [encryptItems_cons]
    refine WItemsRel.cons _ _ vs _ ?_ (wItemsRel_enc split vs)
    rw [show encryptEntry split (.arr xs) = encryptDeep split (.arr xs) by
      simp [encryptEntry, Val.isObject, Val.isMarked]]
    exact WEntryRel.container _ _ rfl rfl (walkRel_enc split (.arr xs))
  | .undef :: vs => by
    rw [encryptItems_cons]
    exact WItemsRel.cons _ _ vs _ (WEntryRel.plain _ rfl)
      (wItemsRel_enc split vs)
  | .null :: vs => by
    rw [encryptItems_cons]
    exact WItemsRel.cons _ _ vs _ (WEntryRel.plain _ rfl)
      (wItemsRel_enc split vs)
  | .bool b :: vs => by
    rw [encryptItems_cons]
    exact WItemsRel.cons _ _ vs _ (WEntryRel.plain _ rfl)
      (wItemsRel_enc split vs)
  | .num n :: vs => by
    rw [encryptItems_cons]
    exact WItemsRel.cons _ _ vs _ (WEntryRel.plain _ rfl)
      (wItemsRel_enc split vs)
  | .str s :: vs => by
    rw [encryptItems_cons]
    exact WItemsRel.cons _ _ vs _ (WEntryRel.plain _ rfl)
      (wItemsRel_enc split vs)

end

mutual

/-- Node variant `i` of the walked record realizes the spec-side
variant relation (for records not themselves carrying the marker at
the root — the walk never treats the root as a markable value). -/
theorem vRel_enc (split : Val → List Val) (i : Nat) :
    ∀ v, v.isMarked = false →
      VRel split i v (allotVariant i (encryptDeep split v))
  | .obj fs, hm => by
    have hmark : (encryptFields split fs).any (fun p => p.1 == "%allot")
        = false := by
      rw [encryptFields_any_marker]; simpa [Val.isMarked] using hm
    rw [show allotVariant i (encryptDeep split (.obj fs))
        = .obj (variantFields i (encryptFields split fs)) by
      show allotVariant i (.obj (encryptFields split fs)) = _
      simp [allotVariant, hmark]]
    exact VRel.obj _ _ (vFieldsRel_enc split i fs)
  | .arr xs, _ => VRel.arr _ _ (vItemsRel_enc split i xs)
  | .undef, _ => VRel.leaf _ rfl
  | .null, _ => VRel.leaf _ rfl
  | .bool _, _ => VRel.leaf _ rfl
  | .num _, _ => VRel.leaf _ rfl
  | .str _, _ => VRel.leaf _ rfl

/-- The variant field loop realizes the entrywise variant relation. -/
theorem vFieldsRel_enc (split : Val → List Val) (i : Nat) :
    ∀ fs, VFieldsRel split i fs (variantFields i (encryptFields split fs))
  | [] => VFieldsRel.nil
  | (k, .obj gs) :: fs => by
    rw [encryptFields_cons, show variantFields i
        ((k, encryptEntry split (.obj gs)) :: encryptFields split fs)
      = (k, allotVariant i (encryptEntry split (.obj gs)))
          :: variantFields i (encryptFields split fs) from rfl]
    refine VFieldsRel.cons k _ _ fs _ ?_ (vFieldsRel_enc split i fs)
    by_cases hm : (Val.obj gs).isMarked
    · rw [show allotVariant i (encryptEntry split (.obj gs))
          = .obj [("%allot",
              shareAt (.arr (split ((Val.obj gs).getF "%allot"))) i)] by
        simp [encryptEntry, Val.isObject, hm, allotVariant, Val.getF]]
      exact VEntryRel.marked _ hm
    · rw [show allotVariant i (encryptEntry split (.obj gs))
          = allotVariant i (encryptDeep split (.obj gs)) by
        simp [encryptEntry, Val.isObject, hm]]
      exact VEntryRel.container _ _ rfl (by simpa using hm)
        (vRel_enc split i (.obj gs) (by simpa using hm))
  | (k, .arr xs) :: fs => by
    rw [encryptFields_cons, show variantFields i
        ((k, encryptEntry split (.arr xs)) :: encryptFields split fs)
      = (k, allotVariant i (encryptEntry split (.arr xs)))
          :: variantFields i (encryptFields split fs) from rfl]
    refine VFieldsRel.cons k _ _ fs _ ?_ (vFieldsRel_enc split i fs)
    rw [show allotVariant i (encryptEntry split (.arr xs))
        = allotVariant i (encryptDeep split (.arr xs)) by
      simp [encryptEntry, Val.isObject, Val.isMarked]]
    exact VEntryRel.container _ _ rfl rfl (vRel_enc split i (.arr xs) rfl)
  | (k, .undef) :: fs => by
    rw [encryptFields_cons]
    exact VFieldsRel.cons k _ _ fs _ (VEntryRel.plain _ rfl)
      (vFieldsRel_enc split i fs)
  | (k, .null) :: fs => by
    rw [encryptFields_cons]
    exact VFieldsRel.cons k _ _ fs _ (VEntryRel.plain _ rfl)
      (vFieldsRel_enc split i fs)
  | (k, .bool b) :: fs => by
    rw [encryptFields_cons]
    exact VFieldsRel.cons k _ _ fs _ (VEntryRel.plain _ rfl)
      (vFieldsRel_enc split i fs)
  | (k, .num n) :: fs => by
    rw [encryptFields_cons]
    exact VFieldsRel.cons k _ _ fs _ (VEntryRel.plain _ rfl)
      (vFieldsRel_enc split i fs)
  | (k, .str s) :: fs => by
    rw [encryptFields_cons]
    exact VFieldsRel.cons k _ _ fs _ (VEntryRel.plain _ rfl)
      (vFieldsRel_enc split i fs)

/-- The variant item loop realizes the elementwise variant relation. -/
theorem vItemsRel_enc (split : Val → List Val) (i : Nat) :
    ∀ vs, VItemsRel split i vs (variantItems i (encryptItems split vs))
  | [] => VItemsRel.nil
  | .obj gs :: vs => by
    rw [encryptItems_cons, show variantItems i
        (encryptEntry split (.obj gs) :: encryptItems split vs)
      = allotVariant i (encryptEntry split (.obj gs))
          :: variantItems i (encryptItems split vs) from rfl]
    refine VItemsRel.cons _ _ vs _ ?_ (vItemsRel_enc split i vs)
    by_cases hm : (Val.obj gs).isMarked
    · rw [show allotVariant i (encryptEntry split (.obj gs))
          = .obj [("%allot",
              shareAt (.arr (split ((Val.obj gs).getF "%allot"))) i)] by
        simp [encryptEntry, Val.isObject, hm, allotVariant, Val.getF]]
      exact VEntryRel.marked _ hm
    · rw [show allotVariant i (encryptEntry split (.obj gs))
          = allotVariant i (encryptDeep split (.obj gs)) by
        simp [encryptEntry, Val.isObject, hm]]
      exact VEntryRel.container _ _ rfl (by simpa using hm)
        (vRel_enc split i (.obj gs) (by simpa using hm))
  | .arr xs :: vs => by
    rw [encryptItems_cons, show variantItems i
        (encryptEntry split (.arr xs) :: encryptItems split vs)
      = allotVariant i (encryptEntry split (.arr xs))
          :: variantItems i (encryptItems split vs) from rfl]
    refine VItemsRel.cons _ _ vs _ ?_ (vItemsRel_enc split i vs)
    rw [show allotVariant i (encryptEntry split (.arr xs))
        = allotVariant i (encryptDeep split (.arr xs)) by
      simp [encryptEntry, Val.isObject, Val.isMarked]]
    exact VEntryRel.container _ _ rfl rfl (vRel_enc split i (.arr xs) rfl)
  | .undef :: vs => by
    rw [encryptItems_cons]
    exact VItemsRel.cons _ _ vs _ (VEntryRel.plain _ rfl)
      (vItemsRel_enc split i vs)
  | .null :: vs => by
    rw [encryptItems_cons]
    exact VItemsRel.cons _ _ vs _ (VEntryRel.plain _ rfl)
      (vItemsRel_enc split i vs)
  | .bool b :: vs => by
    rw [encryptItems_cons]
    exact VItemsRel.cons _ _ vs _ (VEntryRel.plain _ rfl)
      (vItemsRel_enc split i vs)
  | .num n :: vs => by
    rw [encryptItems_cons]
    exact VItemsRel.cons _ _ vs _ (VEntryRel.plain _ rfl)
      (vItemsRel_enc split i vs)
  | .str s :: vs => by
    rw [encryptItems_cons]
    exact VItemsRel.cons _ _ vs _ (VEntryRel.plain _ rfl)
      (vItemsRel_enc split i vs)

end

/-- C8: the allotment walk copies every non-object leaf unchanged,
replaces every marked object value by the marker-wrapped split of its
inner value under the same field name, and recurses structurally into
every unmarked object or array, preserving object versus list shape at
every level — and in node variant `i` of a record (one not carrying the
marker at its root) every leaf is still unchanged and every marked
field holds share `i`, marker-wrapped under the same field name. -/
theorem allotment_walk (split : Val → List Val) (v : Val) :
    WalkRel split v (encryptDeep split v)
    ∧ (v.isMarked = false →
        ∀ i, VRel split i v (allotVariant i (encryptDeep split v))) :=
  ⟨walkRel_enc split v, fun hm i => vRel_enc split i v hm⟩

/-- Witness for C8 at a concrete record with a plain leaf, a marked
field and a nested unmarked object. -/
theorem allotment_walk_witness :
    WalkRel (fun w => [w, w])
      (.obj [("m", .str "hi"),
             ("email", .obj [("%allot", .str "a@b.com")]),
             ("meta", .obj [("lang", .str "en")])])
      (encryptDeep (fun w => [w, w])
        (.obj [("m", .str "hi"),
               ("email", .obj [("%allot", .str "a@b.com")]),
               ("meta", .obj [("lang", .str "en")])]))
    ∧ VRel (fun w => [w, w]) 1
      (.obj [("m", .str "hi"),
             ("email", .obj [("%allot", .str "a@b.com")]),
             ("meta", .obj [("lang", .str "en")])])
      (allotVariant 1 (encryptDeep (fun w => [w, w])
        (.obj [("m", .str "hi"),
               ("email", .obj [("%allot", .str "a@b.com")]),
               ("meta", .obj [("lang", .str "en")])]))) :=
  ⟨(allotment_walk (fun w => [w, w]) _).1,
    (allotment_walk (fun w => [w, w])
      (.obj [("m", .str "hi"),
             ("email", .obj [("%allot", .str "a@b.com")]),
             ("meta", .obj [("lang", .str "en")])])).2 rfl 1⟩

/-- Reading every position of a list back off with a default
reproduces the list. -/
theorem getD_range (l : List α) (d : α) :
    (List.range l.length).map (fun i => l.getD i d) = l := by
  induction l with
  | nil => simp
  | cons x xs ih =>
    rw [List.length_cons, List.range_succ_eq_map, List.map_cons,
      List.map_map]
    show x :: (List.range xs.length).map
      ((fun i => (x :: xs).getD i d) ∘ Nat.succ) = x :: xs
    rw [show ((fun i => (x :: xs).getD i d) ∘ Nat.succ)
        = (fun i => xs.getD i d) from rfl, ih]

/-- Gathering share 0 and then shares `1..n-1` of an `n`-share list
reproduces the list. -/
theorem gather_shares (ss : List Val) (d : Val) (m : Nat)
    (hlen : ss.length = m + 1) :
    ss.getD 0 d :: ((List.range m).map (fun t => ss.getD (t + 1) d))
      = ss := by
  conv_rhs => rw [← getD_range ss d]
  rw [hlen, List.range_succ_eq_map, List.map_cons, List.map_map]
  rfl

mutual

/-- Under the uniformity hypothesis, every share count the prepared
record exposes to `allot` equals `n`, and a record containing a marked
field exposes at least one. -/
theorem mlVal (split : Val → List Val) (n : Nat) :
    ∀ v, v.isMarked = false → uniformShares split n v = true →
      (∀ x ∈ markedLens (encryptDeep split v), x = n)
      ∧ (containsMarked v = true → markedLens (encryptDeep split v) ≠ [])
  | .obj fs, hm, hu => by
    have hmark : (encryptFields split fs).any (fun p => p.1 == "%allot")
        = false := by
      rw [encryptFields_any_marker]; simpa [Val.isMarked] using hm
    have hstep : markedLens (encryptDeep split (.obj fs))
        = markedLensFields (encryptFields split fs) := by
      show markedLens (.obj (encryptFields split fs)) = _
      simp [markedLens, hmark]
    rw [hstep]
    exact mlFields split n fs (by simpa [uniformShares] using hu)
  | .arr xs, _, hu => by
    have hstep : markedLens (encryptDeep split (.arr xs))
        = markedLensItems (encryptItems split xs) := rfl
    rw [hstep]
    exact mlItems split n xs (by simpa [uniformShares] using hu)
  | .undef, _, _ => ⟨by simp [encryptDeep, markedLens], by simp [containsMarked]⟩
  | .null, _, _ => ⟨by simp [encryptDeep, markedLens], by simp [containsMarked]⟩
  | .bool _, _, _ => ⟨by simp [encryptDeep, markedLens], by simp [containsMarked]⟩
  | .num _, _, _ => ⟨by simp [encryptDeep, markedLens], by simp [containsMarked]⟩
  | .str _, _, _ => ⟨by simp [encryptDeep, markedLens], by simp [containsMarked]⟩
termination_by v _ _ => 2 * sizeOf v
decreasing_by all_goals (simp_wf <;> omega)

/-- Field-list form of `mlVal`. -/
theorem mlFields (split : Val → List Val) (n : Nat) :
    ∀ fs, uniformFields split n fs = true →
      (∀ x ∈ markedLensFields (encryptFields split fs), x = n)
      ∧ (cmFields fs = true
          → markedLensFields (encryptFields split fs) ≠ [])
  | [], _ => ⟨by simp [encryptFields, markedLensFields], by simp [cmFields]⟩
  | (k, v) :: fs, hu => by
    have hu' := (uniformFields_cons split n k v fs) ▸ hu
    have hsplit : uniformEntry split n v = true
        ∧ uniformFields split n fs = true := by simpa using hu'
    obtain ⟨hue, huf⟩ := hsplit
    have hstep : markedLensFields (encryptFields split ((k, v) :: fs))
        = markedLens (encryptEntry split v)
          ++ markedLensFields (encryptFields split fs) := by
      rw [encryptFields_cons]; rfl
    have he := mlEntry split n v hue
    have hf := mlFields split n fs huf
    rw [hstep]
    constructor
    · intro x hx
      rcases List.mem_append.mp hx with hx | hx
      · exact he.1 x hx
      · exact hf.1 x hx
    · intro hcm
      rw [cmFields_cons] at hcm
      rcases (by simpa using hcm :
          cmEntry v = true ∨ cmFields fs = true) with hcm | hcm
      · intro hnil
        exact he.2 hcm (List.append_eq_nil.mp hnil).1
      · intro hnil
        exact hf.2 hcm (List.append_eq_nil.mp hnil).2
termination_by fs _ => 2 * sizeOf fs
decreasing_by all_goals (simp_wf <;> omega)

/-- Item-list form of `mlVal`. -/
theorem mlItems (split : Val → List Val) (n : Nat) :
    ∀ vs, uniformItems split n vs = true →
      (∀ x ∈ markedLensItems (encryptItems split vs), x = n)
      ∧ (cmItems vs = true → markedLensItems (encryptItems split vs) ≠ [])
  | [], _ => ⟨by simp [encryptItems, markedLensItems], by simp [cmItems]⟩
  | v :: vs, hu => by
    have hu' := (uniformItems_cons split n v vs) ▸ hu
    have hsplit : uniformEntry split n v = true
        ∧ uniformItems split n vs = true := by simpa using hu'
    obtain ⟨hue, huf⟩ := hsplit
    have hstep : markedLensItems (encryptItems split (v :: vs))
        = markedLens (encryptEntry split v)
          ++ markedLensItems (encryptItems split vs) := by
      rw [encryptItems_cons]; rfl
    have he := mlEntry split n v hue
    have hf := mlItems split n vs huf
    rw [hstep]
    constructor
    · intro x hx
      rcases List.mem_append.mp hx with hx | hx
      · exact he.1 x hx
      · exact hf.1 x hx
    · intro hcm
      rw [cmItems_cons] at hcm
      rcases (by simpa using hcm :
          cmEntry v = true ∨ cmItems vs = true) with hcm | hcm
      · intro hnil
        exact he.2 hcm (List.append_eq_nil.mp hnil).1
      · intro hnil
        exact hf.2 hcm (List.append_eq_nil.mp hnil).2
termination_by vs _ => 2 * sizeOf vs
decreasing_by all_goals (simp_wf <;> omega)

/-- Entry form of `mlVal`. -/
theorem mlEntry (split : Val → List Val) (n : Nat) :
    ∀ v, uniformEntry split n v = true →
      (∀ x ∈ markedLens (encryptEntry split v), x = n)
      ∧ (cmEntry v = true → markedLens (encryptEntry split v) ≠ [])
  | v, hu => by
    by_cases ho : v.isObject
    · by_cases hmk : v.isMarked
      · have hss : (split (v.getF "%allot")).length = n := by
          have h0 := hu
          simp [uniformEntry, ho, hmk] at h0
          exact h0
        have hstep : markedLens (encryptEntry split v)
            = [(split (v.getF "%allot")).length] := by
          simp [encryptEntry, ho, hmk, markedLens, shareLen, Val.getF]
        rw [hstep, hss]
        exact ⟨by simp, fun _ => by simp⟩
      · have hstep : encryptEntry split v = encryptDeep split v := by
          simp [encryptEntry, ho, hmk]
        have hu' : uniformShares split n v = true := by
          have h0 := hu
          simp [uniformEntry, ho, hmk] at h0
          exact h0
        have hcm : cmEntry v = containsMarked v := by
          simp [cmEntry, ho, hmk]
        rw [hstep, hcm]
        exact mlVal split n v (by simpa using hmk) hu'
    · have hv : encryptEntry split v = v := by simp [encryptEntry, ho]
      have hml : markedLens v = [] := by
        cases v <;> simp_all [Val.isObject, markedLens]
      have hce : cmEntry v = false := by simp [cmEntry, ho]
      rw [hv, hml, hce]
      exact ⟨by simp, by simp⟩
termination_by v _ => 2 * sizeOf v + 1
decreasing_by all_goals (simp_wf <;> omega)

end

/-- A maximum fold over a nonempty constant list of positive value. -/
theorem foldr_max_const (l : List Nat) (n : Nat) (hall : ∀ x ∈ l, x = n)
    (hne : l ≠ []) (hn : 1 ≤ n) : l.foldr Nat.max 1 = n := by
  induction l with
  | nil => exact absurd rfl hne
  | cons x xs ih =>
    have hx : x = n := hall x (by simp)
    cases xs with
    | nil =>
      simp only [List.foldr, hx]
      exact Nat.max_eq_left hn
    | cons y ys =>
      have hrec := ih (fun z hz => hall z (List.mem_cons_of_mem x hz))
        (by simp)
      simp only [List.foldr] at hrec ⊢
      rw [hx, hrec]
      exact Nat.max_self n

/-- Under the round-trip hypotheses the modelled `allot` emits exactly
`n` node variants. -/
theorem allotCount_enc (split : Val → List Val) (n : Nat) (w : Val)
    (hm : w.isMarked = false) (hcm : containsMarked w = true)
    (hu : uniformShares split n w = true) (hn : 1 ≤ n) :
    allotCount (encryptDeep split w) = n := by
  obtain ⟨hall, hne⟩ := mlVal split n w hm hu
  exact foldr_max_const _ n hall (hne hcm) hn

/-- The variant loop preserves the `%allot` key test on a field
list. -/
theorem variantFields_any_marker (i : Nat) (fs : List (String × Val)) :
    (variantFields i fs).any (fun p => p.1 == "%allot")
      = fs.any (fun p => p.1 == "%allot") := by
  rw [variantFields_eq_map, List.any_map]
  rfl

/-- Unification at a marker-wrapped node gathers the share components
of every variant and recombines them. -/
theorem unifyWith_marked_singleton (c : List Val → Val) (x : Val)
    (os : List Val) :
    unifyWith c (.obj [("%allot", x)]) os
      = c (x :: os.map (fun o => o.getF "%allot")) := by
  simp [unifyWith, Val.getF]

mutual

/-- Round trip of one record value: unifying variant 0 with variants
`1..n-1` of the prepared record recovers the plaintext record, whenever
every marked field splits into exactly `n` shares. -/
theorem rt_val (split : Val → List Val) (c : List Val → Val) (n : Nat)
    (hc : ∀ u, c (split u) = u) (hn : 1 ≤ n) :
    ∀ v, v.isMarked = false → uniformShares split n v = true →
      unifyWith c (allotVariant 0 (encryptDeep split v))
        ((List.range (n - 1)).map
          (fun t => allotVariant (t + 1) (encryptDeep split v)))
      = plainOf v
  | .obj fs, hm, hu => by
    have hmark : (encryptFields split fs).any (fun p => p.1 == "%allot")
        = false := by
      rw [encryptFields_any_marker]; simpa [Val.isMarked] using hm
    have hvar : ∀ j, allotVariant j (encryptDeep split (.obj fs))
        = .obj (variantFields j (encryptFields split fs)) := fun j => by
      show allotVariant j (.obj (encryptFields split fs)) = _
      simp [allotVariant, hmark]
    rw [hvar 0, List.map_congr_left (fun t _ => hvar (t + 1))]
    have hmark2 : (variantFields 0 (encryptFields split fs)).any
        (fun p => p.1 == "%allot") = false := by
      rw [variantFields_any_marker]; exact hmark
    simp only [unifyWith, hmark2, Bool.false_eq_true, if_false,
      List.map_map]
    rw [show plainOf (.obj fs) = .obj (plainFields fs) from rfl]
    congr 1
    exact rt_fields split c n hc hn fs (by simpa [uniformShares] using hu)
  | .arr xs, _, hu => by
    have hvar : ∀ j, allotVariant j (encryptDeep split (.arr xs))
        = .arr (variantItems j (encryptItems split xs)) := fun _ => rfl
    rw [hvar 0, List.map_congr_left (fun t _ => hvar (t + 1))]
    simp only [unifyWith, List.map_map]
    rw [show plainOf (.arr xs) = .arr (plainItems xs) from rfl]
    congr 1
    exact rt_items split c n hc hn xs (by simpa [uniformShares] using hu)
  | .undef, _, _ => by simp [encryptDeep, allotVariant, unifyWith, plainOf]
  | .null, _, _ => by simp [encryptDeep, allotVariant, unifyWith, plainOf]
  | .bool _, _, _ => by simp [encryptDeep, allotVariant, unifyWith, plainOf]
  | .num _, _, _ => by simp [encryptDeep, allotVariant, unifyWith, plainOf]
  | .str _, _, _ => by simp [encryptDeep, allotVariant, unifyWith, plainOf]
termination_by v _ _ => 2 * sizeOf v
decreasing_by all_goals (simp_wf <;> omega)

/-- Field-list form of the round trip. -/
theorem rt_fields (split : Val → List Val) (c : List Val → Val) (n : Nat)
    (hc : ∀ u, c (split u) = u) (hn : 1 ≤ n) :
    ∀ fs, uniformFields split n fs = true →
      unifyFields c (variantFields 0 (encryptFields split fs))
        ((List.range (n - 1)).map
          (fun t => variantFields (t + 1) (encryptFields split fs)))
      = plainFields fs
  | [], _ => by simp [encryptFields, variantFields, unifyFields, plainFields]
  | (k, v) :: fs, hu => by
    have hsplit : uniformEntry split n v = true
        ∧ uniformFields split n fs = true := by
      have h0 := (uniformFields_cons split n k v fs) ▸ hu
      simpa using h0
    rw [encryptFields_cons]
    simp only [variantFields, unifyFields, List.map_map]
    rw [plainFields_cons]
    congr 1
    · refine congrArg (fun w => (k, w)) ?_
      exact rt_entry split c n hc hn v hsplit.1
    · exact rt_fields split c n hc hn fs hsplit.2
termination_by fs _ => 2 * sizeOf fs
decreasing_by all_goals (simp_wf <;> omega)

/-- Item-list form of the round trip. -/
theorem rt_items (split : Val → List Val) (c : List Val → Val) (n : Nat)
    (hc : ∀ u, c (split u) = u) (hn : 1 ≤ n) :
    ∀ vs, uniformItems split n vs = true →
      unifyItems c (variantItems 0 (encryptItems split vs))
        ((List.range (n - 1)).map
          (fun t => variantItems (t + 1) (encryptItems split vs)))
      = plainItems vs
  | [], _ => by simp [encryptItems, variantItems, unifyItems, plainItems]
  | v :: vs, hu => by
    have hsplit : uniformEntry split n v = true
        ∧ uniformItems split n vs = true := by
      have h0 := (uniformItems_cons split n v vs) ▸ hu
      simpa using h0
    rw [encryptItems_cons]
    simp only [variantItems, unifyItems, List.map_map]
    rw [plainItems_cons]
    congr 1
    · exact rt_entry split c n hc hn v hsplit.1
    · exact rt_items split c n hc hn vs hsplit.2
termination_by vs _ => 2 * sizeOf vs
decreasing_by all_goals (simp_wf <;> omega)

/-- Entry form of the round trip: one field value through the walk,
variant selection and unification. -/
theorem rt_entry (split : Val → List Val) (c : List Val → Val) (n : Nat)
    (hc : ∀ u, c (split u) = u) (hn : 1 ≤ n) :
    ∀ v, uniformEntry split n v = true →
      unifyWith c (allotVariant 0 (encryptEntry split v))
        ((List.range (n - 1)).map
          (fun t => allotVariant (t + 1) (encryptEntry split v)))
      = plainEntry v
  | v, hu => by
    by_cases ho : v.isObject
    · by_cases hmk : v.isMarked
      · have hss : (split (v.getF "%allot")).length = n := by
          have h0 := hu
          simp [uniformEntry, ho, hmk] at h0
          exact h0
        have hwrap : encryptEntry split v
            = .obj [("%allot", .arr (split (v.getF "%allot")))] := by
          simp [encryptEntry, ho, hmk]
        have hvar : ∀ j,
            allotVariant j (.obj [("%allot", .arr (split (v.getF "%allot")))])
            = .obj [("%allot", (split (v.getF "%allot")).getD j .undef)] := by
          intro j
          simp [allotVariant, Val.getF, shareAt]
        have htail : ((List.range (n - 1)).map (fun t =>
            Val.obj [("%allot", (split (v.getF "%allot")).getD (t + 1) .undef)])).map
              (fun o => o.getF "%allot")
            = (List.range (n - 1)).map (fun t =>
                (split (v.getF "%allot")).getD (t + 1) .undef) := by
          rw [List.map_map]
          apply List.map_congr_left
          intro t _
          simp [Val.getF]
        rw [hwrap, hvar 0, List.map_congr_left (fun t _ => hvar (t + 1)),
          unifyWith_marked_singleton, htail,
          gather_shares (split (v.getF "%allot")) .undef (n - 1) (by omega),
          hc]
        simp [plainEntry, ho, hmk]
      · have hstep : encryptEntry split v = encryptDeep split v := by
          simp [encryptEntry, ho, hmk]
        have hu' : uniformShares split n v = true := by
          have h0 := hu
          simp [uniformEntry, ho, hmk] at h0
          exact h0
        rw [hstep, rt_val split c n hc hn v (by simpa using hmk) hu']
        simp [plainEntry, ho, hmk]
    · have hene : encryptEntry split v = v := by simp [encryptEntry, ho]
      rw [hene]
      cases v with
      | obj fs => simp [Val.isObject] at ho
      | arr xs => simp [Val.isObject] at ho
      | undef => simp [allotVariant, unifyWith, plainEntry, Val.isObject]
      | null => simp [allotVariant, unifyWith, plainEntry, Val.isObject]
      | bool b => simp [allotVariant, unifyWith, plainEntry, Val.isObject]
      | num m => simp [allotVariant, unifyWith, plainEntry, Val.isObject]
      | str s => simp [allotVariant, unifyWith, plainEntry, Val.isObject]
termination_by v _ => 2 * sizeOf v + 1
decreasing_by all_goals (simp_wf <;> omega)

end

/-- The plaintext field walk is the entrywise map. -/
theorem plainFields_eq_map (fs : List (String × Val)) :
    plainFields fs = fs.map (fun p => (p.1, plainEntry p.2)) := by
  induction fs with
  | nil => rfl
  | cons p ps ih => cases p; rw [plainFields_cons, ih]; rfl

/-- Only objects carry the marker. -/
theorem isObject_of_isMarked (v : Val) (h : v.isMarked = true) :
    v.isObject = true := by
  cases v <;> simp_all [Val.isMarked, Val.isObject]

/-- Record-level round trip: unifying all `n` node variants of the
prepared record recovers the plaintext record. -/
theorem rt_record (split : Val → List Val) (c : List Val → Val) (n : Nat)
    (hc : ∀ u, c (split u) = u) (hn : 1 ≤ n) (w : Val)
    (hm : w.isMarked = false) (hu : uniformShares split n w = true) :
    unifyVals c ((List.range n).map
      (fun i => allotVariant i (encryptDeep split w))) = plainOf w := by
  obtain ⟨m, rfl⟩ : ∃ m, n = m + 1 := ⟨n - 1, by omega⟩
  rw [List.range_succ_eq_map, List.map_cons, List.map_map]
  show unifyWith c (allotVariant 0 (encryptDeep split w))
    ((List.range m).map
      ((fun i => allotVariant i (encryptDeep split w)) ∘ Nat.succ)) = plainOf w
  exact rt_val split c (m + 1) hc hn w hm hu

/-- C1: for a record with at least one `%allot`-marked field, whose
marked values all split into exactly `n` shares (`n` = the configured
node count), recombining the complete set of `n` node shares — the
`prepareAndAllot` output followed by per-node share selection — yields
the plaintext record, and in particular every marked field holds
exactly its original plaintext value. -/
theorem secret_share_round_trip {K : Type} (enc : K → Val → List Val)
    (comb : K → List Val → Val) (k : K) (s : NilQLWrapper K)
    (hs : s.secretKey = some k)
    (hc : ∀ u, comb k (enc k u) = u) (n : Nat) (hn : 1 ≤ n) (w : Val)
    (hm : w.isMarked = false) (hcm : containsMarked w = true)
    (hu : uniformShares (enc k) n w = true)
    (shareSet : List Val)
    (hp : NilQLWrapper.prepareAndAllot enc s w = .ok shareSet)
    (f : String) (inner : Val) (hf : (w.getF f).isMarked = true)
    (hinner : (w.getF f).getF "%allot" = inner) :
    NilQLWrapper.unify comb s
        ((List.range n).map (fun i => selectShare n shareSet i))
      = .ok (plainOf w)
    ∧ (plainOf w).getF f = inner := by
  have hset : shareSet = allot (encryptDeep (enc k) w) := by
    simp [NilQLWrapper.prepareAndAllot, hs] at hp
    exact hp.symm
  have hcount : allotCount (encryptDeep (enc k) w) = n :=
    allotCount_enc (enc k) n w hm hcm hu hn
  have hlen : shareSet.length = n := by
    rw [hset]; simp [allot, hcount]
  have hsel : (List.range n).map (fun i => selectShare n shareSet i)
      = shareSet := by
    rw [List.map_congr_left
      (fun i _ => show selectShare n shareSet i = shareSet.getD i .undef by
        simp [selectShare, hlen])]
    rw [← hlen]
    exact getD_range shareSet .undef
  constructor
  · rw [hsel, hset]
    simp only [NilQLWrapper.unify, hs]
    rw [show allot (encryptDeep (enc k) w)
        = (List.range n).map (fun i => allotVariant i (encryptDeep (enc k) w))
      by simp [allot, hcount]]
    exact congrArg Except.ok (rt_record (enc k) (comb k) n hc hn w hm hu)
  · cases w with
    | obj fs =>
      cases hfind : fs.find? (fun p => p.1 == f) with
      | none =>
        rw [show (Val.obj fs).getF f = .undef by simp [Val.getF, hfind]] at hf
        simp [Val.isMarked] at hf
      | some p =>
        have hpf : (Val.obj fs).getF f = p.2 := by simp [Val.getF, hfind]
        rw [hpf] at hf hinner
        have hplain : (plainOf (.obj fs)).getF f = plainEntry p.2 := by
          rw [show plainOf (.obj fs) = .obj (plainFields fs) from rfl,
            plainFields_eq_map, Val.getF_obj_map plainEntry fs f, hfind]
        rw [hplain]
        have ho := isObject_of_isMarked p.2 hf
        simp [plainEntry, ho, hf, hinner]
    | arr xs => simp [Val.getF, Val.isMarked] at hf
    | undef => simp [Val.getF, Val.isMarked] at hf
    | null => simp [Val.getF, Val.isMarked] at hf
    | bool b => simp [Val.getF, Val.isMarked] at hf
    | num m => simp [Val.getF, Val.isMarked] at hf
    | str t => simp [Val.getF, Val.isMarked] at hf

/-- Witness for C1 on a two-node cluster with a concrete sharing scheme
satisfying the recombination law, a record carrying one marked field: the
fan-in of both node shares recovers the plaintext record and the marked
field's original value. -/
theorem secret_share_round_trip_witness :
    NilQLWrapper.unify (fun (_ : Unit) l => l.headD .undef)
        ⟨some (), none, "cluster"⟩
        ((List.range 2).map (fun i => selectShare 2
          (allot (encryptDeep (fun v => [v, .null])
            (.obj [("_id", .str "1"),
                   ("email", .obj [("%allot", .str "a@b.com")]),
                   ("m", .str "hi")]))) i))
      = .ok (plainOf (.obj [("_id", .str "1"),
                            ("email", .obj [("%allot", .str "a@b.com")]),
                            ("m", .str "hi")]))
    ∧ (plainOf (.obj [("_id", .str "1"),
                      ("email", .obj [("%allot", .str "a@b.com")]),
                      ("m", .str "hi")])).getF "email" = .str "a@b.com" :=
  secret_share_round_trip (fun (_ : Unit) v => [v, .null])
    (fun _ l => l.headD .undef) () ⟨some (), none, "cluster"⟩ rfl
    (fun _ => rfl) 2 (by omega)
    (.obj [("_id", .str "1"),
           ("email", .obj [("%allot", .str "a@b.com")]),
           ("m", .str "hi")])
    rfl rfl rfl _ rfl "email" (.str "a@b.com") rfl rfl

/-- The digit-run value of a list extended by one digit character. -/
theorem parseDigits_append (ds : List Char) (ch : Char) :
    parseDigits (ds ++ [ch]) = parseDigits ds * 10 + (ch.toNat - 48) := by
  simp [parseDigits, List.foldl_append]

/-- A rendered number has at least one digit. -/
theorem natReprAux_ne_nil (fuel n : Nat) (h : n < fuel) :
    natReprAux fuel n ≠ [] := by
  cases fuel with
  | zero => omega
  | succ fuel =>
    by_cases h10 : n < 10 <;> simp [natReprAux, h10]

/-- Every character of a rendered number is a digit. -/
theorem natReprAux_digits (fuel n : Nat) :
    ∀ c ∈ natReprAux fuel n, c.isDigit = true := by
  induction fuel generalizing n with
  | zero => simp [natReprAux]
  | succ fuel ih =>
    intro c hc
    by_cases h10 : n < 10
    · simp [natReprAux, h10] at hc
      subst hc
      interval_cases n <;> decide
    · simp [natReprAux, h10] at hc
      rcases hc with hc | hc
      · exact ih (n / 10) c hc
      · subst hc
        have hr : n % 10 < 10 := Nat.mod_lt n (by omega)
        set r := n % 10 with hrdef
        interval_cases r <;> decide

/-- Parsing the rendered digits of a number recovers the number
(`Number.parseInt` of the capture). -/
theorem parseDigits_natReprAux (fuel n : Nat) (h : n < fuel) :
    parseDigits (natReprAux fuel n) = n := by
  induction fuel generalizing n with
  | zero => omega
  | succ fuel ih =>
    by_cases h10 : n < 10
    · simp [natReprAux, h10, parseDigits]
      interval_cases n <;> decide
    · have hdiv : n / 10 < fuel := by omega
      simp only [natReprAux, h10, if_false, parseDigits_append, ih _ hdiv]
      have hr : n % 10 < 10 := Nat.mod_lt n (by omega)
      have hch : (Char.ofNat (48 + n % 10)).toNat - 48 = n % 10 := by
        set r := n % 10 with hrdef
        interval_cases r <;> decide
      rw [hch]
      omega

/-- The status probe skips any character that cannot open the
literal. -/
theorem statusScan_cons_skip (c : Char) (rest : List Char) (hc : ¬c = 's') :
    statusScan (c :: rest) = statusScan rest := by
  have h : afterLit ['s', 't', 'a', 't', 'u', 's', ':', ' '] (c :: rest)
      = none := by
    simp [afterLit, hc]
  simp [statusScan, h]

/-- The status probe skips a whole prefix free of `'s'`. -/
theorem statusScan_prefix_skip (pre rest : List Char)
    (hpre : ∀ c ∈ pre, ¬c = 's') :
    statusScan (pre ++ rest) = statusScan rest := by
  induction pre with
  | nil => rfl
  | cons c cs ih =>
    rw [List.cons_append, statusScan_cons_skip c _ (hpre c (by simp)),
      ih (fun d hd => hpre d (by simp [hd]))]

/-- Matching a literal against itself leaves the remainder. -/
theorem afterLit_exact (lit rest : List Char) :
    afterLit lit (lit ++ rest) = some rest := by
  induction lit with
  | nil => rfl
  | cons c cs ih => simp [afterLit, ih]

/-- A digit-run capture stops at the first non-matching character. -/
theorem takeWhile_digits_stop (p : Char → Bool) (xs : List Char) (y : Char)
    (ys : List Char) (hxs : ∀ x ∈ xs, p x = true) (hy : p y = false) :
    List.takeWhile p (xs ++ y :: ys) = xs := by
  induction xs with
  | nil => simp [List.takeWhile, hy]
  | cons x xt ih =>
    rw [List.cons_append, List.takeWhile_cons_of_pos (hxs x (by simp)),
      ih (fun d hd => hxs d (by simp [hd]))]

/-- The status probe at the start of the literal captures the digit
run. -/
theorem statusScan_at_match (X : List Char) :
    statusScan ('s' :: 't' :: 'a' :: 't' :: 'u' :: 's' :: ':' :: ' ' :: X)
      = match X.takeWhile Char.isDigit with
        | [] => statusScan ('t' :: 'a' :: 't' :: 'u' :: 's' :: ':' :: ' ' :: X)
        | ds => some (parseDigits ds) := by
  have h : afterLit ['s', 't', 'a', 't', 'u', 's', ':', ' ']
      ('s' :: 't' :: 'a' :: 't' :: 'u' :: 's' :: ':' :: ' ' :: X)
      = some X := by
    simp [afterLit]
  simp [statusScan, h]

/-- The catch block's status probe recovers the HTTP status number from
the message a non-2xx response throws. -/
theorem statusMatch_http (S : Nat) (T : String) :
    statusMatch ("HTTP error! status: " ++ natRepr S ++ ", body: " ++ T)
      = some S := by
  have hdata : ("HTTP error! status: " ++ natRepr S ++ ", body: " ++ T).toList
      = "HTTP error! ".toList ++ ("status: ".toList
          ++ (natReprAux (S + 1) S
            ++ (',' :: (" body: ".toList ++ T.toList)))) := by
    show ("HTTP error! status: " ++ natRepr S ++ ", body: " ++ T).data = _
    simp [String.data_append, natRepr]
  rw [statusMatch, hdata, statusScan_prefix_skip _ _ (by decide)]
  show statusScan ('s' :: 't' :: 'a' :: 't' :: 'u' :: 's' :: ':' :: ' '
      :: (natReprAux (S + 1) S ++ (',' :: (" body: ".toList ++ T.toList))))
    = some S
  rw [statusScan_at_match,
    takeWhile_digits_stop Char.isDigit _ ',' _
      (natReprAux_digits (S + 1) S) (by decide)]
  obtain ⟨d, ds2, hds⟩ := List.exists_cons_of_ne_nil
    (natReprAux_ne_nil (S + 1) S (by omega))
  rw [hds]
  show some (parseDigits (d :: ds2)) = some S
  rw [← hds, parseDigits_natReprAux (S + 1) S (by omega)]

/-- C9 (amended): `makeRequest` contains request failures — a transport
rejection, a non-2xx response, or a locally thrown exception comes back
as a returned object whose `status` field is the parsed HTTP status
number (for a non-2xx response, exactly `response.status`) or `null`,
and whose `error` field holds the parsed structured body or the wrapped
exception — except when the error message carries a brace-delimited
body capture that `JSON.parse` rejects: that exception propagates out
of `makeRequest`, so the settled mapping's rejected branch is reachable
beyond token-generation failures. -/
theorem makeRequest_error_containment (parseJson : String → Option Val)
    (m b : String) (j : Val) (r : FetchResponse)
    (hnotOk : respOk r.status = false) :
    (bodyMatch m = none →
      makeRequestCatch parseJson m
        = .ok (.obj [("status", statusField m), ("error", wrappedError m)]))
    ∧ (bodyMatch m = some b → parseJson b = some j →
      makeRequestCatch parseJson m
        = .ok (.obj [("status", statusField m), ("error", j)]))
    ∧ (bodyMatch m = some b → parseJson b = none →
      makeRequestCatch parseJson m
        = .error "SyntaxError: Unexpected token in JSON")
    ∧ makeRequest parseJson (.reject m) = makeRequestCatch parseJson m
    ∧ makeRequest parseJson (.resp r)
        = makeRequestCatch parseJson
            ("HTTP error! status: " ++ natRepr r.status ++ ", body: "
              ++ r.textBody)
    ∧ statusField ("HTTP error! status: " ++ natRepr r.status ++ ", body: "
          ++ r.textBody)
        = .num r.status := by
  refine ⟨?_, ?_, ?_, rfl, ?_, ?_⟩
  · intro hb
    simp [makeRequestCatch, hb]
  · intro hb hj
    simp [makeRequestCatch, hb, hj]
  · intro hb hj
    simp [makeRequestCatch, hb, hj]
  · simp [makeRequest, hnotOk]
  · rw [statusField, statusMatch_http]

/-- Witness for C9 (amended) at a concrete transport failure and a
concrete 500 response. -/
theorem makeRequest_error_containment_witness :
    makeRequestCatch (fun _ => some (.obj [])) "fetch failed"
      = .ok (.obj [("status", statusField "fetch failed"),
                   ("error", wrappedError "fetch failed")])
    ∧ makeRequest (fun _ => some (.obj [])) (.resp ⟨500, true, none, "", "nobody"⟩)
      = makeRequestCatch (fun _ => some (.obj []))
          ("HTTP error! status: " ++ natRepr 500 ++ ", body: " ++ "nobody")
    ∧ statusField ("HTTP error! status: " ++ natRepr 500 ++ ", body: "
          ++ "nobody")
      = .num 500 := by
  have h := makeRequest_error_containment (fun _ => some (.obj []))
    "fetch failed" "x" .null ⟨500, true, none, "", "nobody"⟩ rfl
  exact ⟨h.1 rfl, h.2.2.2.2.1, h.2.2.2.2.2⟩

/-- C9 counterexample: a non-2xx response whose body text is a
brace-delimited string that is not valid JSON (`JSON.parse` throws on
`"\x7boops\x7d"`, modelled by the parse function returning `none` there)
makes `makeRequest` itself throw instead of returning an error object,
and that exception reaches the per-node leg as a rejection — so the
settled-results rejected branch is reachable without token generation
throwing, refuting the claim's totality.  The parse function models
`JSON.parse` faithfully on the two strings it is called on. -/
theorem makeRequest_error_containment_counterexample :
    makeRequest (fun s => if s = "\x7boops\x7d" then none else some (.obj []))
        (.resp ⟨500, true, some (.obj []), "", "\x7boops\x7d"⟩)
      = .error "SyntaxError: Unexpected token in JSON"
    ∧ nodeLeg (fun _ =>
        (makeRequest (fun s => if s = "\x7boops\x7d" then none else some (.obj []))
          (.resp ⟨500, true, some (.obj []), "", "\x7boops\x7d"⟩)).mapError
            (fun msg => Val.str msg)) (.str "n0")
      = .error (.obj [("error", .str "SyntaxError: Unexpected token in JSON"),
                      ("node", .str "n0")]) :=
  ⟨rfl, rfl⟩

/-! ## Heap model (claim C10)

JavaScript records are object references; to state that `writeToNodes`
never mutates its input, the data-preparation phase (the id pass of
part_000 lines 374-379 and the `encryptDeep` walk of wrapper.js lines
124-145, plus the external `nilql.encrypt`/`nilql.allot` calls) is
re-embedded over an explicit object store in which allocation appends
and mutation would overwrite.  The external collaborators are
parameters assumed heap-extending. -/

/-- Heap-level values: primitives or references into the object
store. -/
inductive HVal where
  | undef : HVal
  | null : HVal
  | bool : Bool → HVal
  | num : Int → HVal
  | str : String → HVal
  | ref : Nat → HVal
deriving Repr, DecidableEq

/-- One heap object: array flag plus ordered fields (arrays carry
their index keys). -/
structure HObj where
  isArr : Bool
  fields : List (String × HVal)
deriving Repr, DecidableEq

/-- The object store; an address is a position, allocation appends. -/
abbrev Heap := List HObj

/-- Truthiness at heap level (every object reference is truthy). -/
def HVal.truthy : HVal → Bool
  | .undef => false
  | .null => false
  | .bool b => b
  | .num n => n != 0
  | .str s => s ≠ ""
  | .ref _ => true

/-- Field read through the heap (`undefined` for non-objects, dangling
references and absent keys). -/
def hGetF (h : Heap) (v : HVal) (k : String) : HVal :=
  match v with
  | .ref a =>
    match h[a]? with
    | some o =>
      match o.fields.find? (fun p => p.1 == k) with
      | some p => p.2
      | none => .undef
    | none => .undef
  | _ => (.undef)

/-- Spread-with-override on a field list (key order preserved). -/
def hSetFields (fs : List (String × HVal)) (k : String) (x : HVal) :
    List (String × HVal) :=
  if fs.any (fun p => p.1 == k) then
    fs.map (fun p => if p.1 == k then (p.1, x) else p)
  else fs ++ [(k, x)]

/-- `\x7b...record, _id: gen\x7d`: a fresh object is allocated at the end of
the store; the original is left untouched. -/
def spreadWithId (gen : String) (h : Heap) (r : HVal) : Heap × HVal :=
  match r with
  | .ref a =>
    match h[a]? with
    | some o =>
      (h ++ [⟨false, hSetFields o.fields "_id" (.str gen)⟩], .ref h.length)
    | none => (h ++ [⟨false, [("_id", .str gen)]⟩], .ref h.length)
  | _ => (h ++ [⟨false, [("_id", .str gen)]⟩], .ref h.length)

/-- The id pass of `writeToNodes` (part_000 lines 374-379) at heap
level: records with truthy `_id` pass through as the same reference,
the others are replaced by a fresh spread copy. -/
def addIdsH (uuids : Nat → String) :
    Nat → Heap → List HVal → Heap × List HVal
  | _, h, [] => (h, [])
  | k, h, r :: rs =>
    if (hGetF h r "_id").truthy then
      let p := addIdsH uuids k h rs
      (p.1, r :: p.2)
    else
      let q := spreadWithId (uuids k) h r
      let p := addIdsH uuids (k + 1) q.1 rs
      (p.1, q.2 :: p.2)

/-- The entry loop of the heap-level walk, parameterized over the
recursive step (`encryptDeepH` at the remaining fuel): a marked object
value is replaced by a freshly allocated `\x7b"%allot": encH(...)\x7d`
wrapper, any other object value goes through `step`, primitives are
copied. -/
def encFieldsWith (step : Heap → HVal → Option (Heap × HVal))
    (encH : Heap → HVal → Heap × HVal) :
    Heap → List (String × HVal) → Option (Heap × List (String × HVal))
  | h, [] => some (h, [])
  | h, (k, v) :: fs =>
    match v with
    | .ref a =>
      match h[a]? with
      | none => none
      | some o =>
        if o.fields.any (fun p => p.1 == "%allot") then
          let es := encH h (hGetF h (.ref a) "%allot")
          let h1 := es.1 ++ [⟨false, [("%allot", es.2)]⟩]
          match encFieldsWith step encH h1 fs with
          | none => none
          | some (h2, fs2) => some (h2, (k, .ref es.1.length) :: fs2)
        else
          match step h (.ref a) with
          | none => none
          | some (h1, v1) =>
            match encFieldsWith step encH h1 fs with
            | none => none
            | some (h2, fs2) => some (h2, (k, v1) :: fs2)
    | v =>
      match encFieldsWith step encH h fs with
      | none => none
      | some (h2, fs2) => some (h2, (k, v) :: fs2)

/-- The `encryptDeep` walk at heap level, with fuel for the (possibly
cyclic) reference structure — any fuel above the nesting depth gives
the walk's value: a fresh result object is allocated per visited
object; nothing is written into existing cells.  `encH` stands for the
external `nilql.encrypt`. -/
def encryptDeepH (encH : Heap → HVal → Heap × HVal) :
    Nat → Heap → HVal → Option (Heap × HVal)
  | 0, _, _ => none
  | fuel + 1, h, v =>
    match v with
    | .ref a =>
      match h[a]? with
      | none => none
      | some o =>
        match encFieldsWith (encryptDeepH encH fuel) encH h o.fields with
        | none => none
        | some (h1, fs1) => some (h1 ++ [⟨o.isArr, fs1⟩], .ref h1.length)
    | v => some (h, v)

/-- The per-record preparation loop of `allotData` at heap level:
`encryptDeep` then the external `nilql.allot` (`allotH`). -/
def encAllotAllH (encH allotH : Heap → HVal → Heap × HVal) (fuel : Nat) :
    Heap → List HVal → Option (Heap × List HVal)
  | h, [] => some (h, [])
  | h, r :: rs =>
    match encryptDeepH encH fuel h r with
    | none => none
    | some (h1, e) =>
      let a := allotH h1 e
      match encAllotAllH encH allotH fuel a.1 rs with
      | none => none
      | some (h2, out) => some (h2, a.2 :: out)

/-- The store only ever grows by allocation. -/
def HeapExt (h h2 : Heap) : Prop := ∃ tail, h2 = h ++ tail

/-- Extension is reflexive. -/
theorem HeapExt.refl (h : Heap) : HeapExt h h := ⟨[], (List.append_nil h).symm⟩

/-- Extension is transitive. -/
theorem HeapExt.trans {h1 h2 h3 : Heap} (a : HeapExt h1 h2)
    (b : HeapExt h2 h3) : HeapExt h1 h3 := by
  obtain ⟨t1, rfl⟩ := a
  obtain ⟨t2, rfl⟩ := b
  exact ⟨t1 ++ t2, List.append_assoc _ _ _⟩

/-- Allocation extends the store. -/
theorem HeapExt.alloc (h : Heap) (o : HObj) : HeapExt h (h ++ [o]) := ⟨[o], rfl⟩

/-- Every pre-existing cell is untouched by an extension. -/
theorem HeapExt.getElem? {h h2 : Heap} (e : HeapExt h h2) (a : Nat)
    (ha : a < h.length) : h2[a]? = h[a]? := by
  obtain ⟨t, rfl⟩ := e
  exact List.getElem?_append_left ha

/-- Field reads of a valid reference are stable under extension. -/
theorem hGetF_ext {h h2 : Heap} (e : HeapExt h h2) (r : HVal) (k : String)
    (hv : ∀ a, r = .ref a → a < h.length) :
    hGetF h2 r k = hGetF h r k := by
  cases r with
  | ref a => simp [hGetF, e.getElem? a (hv a rfl)]
  | undef => rfl
  | null => rfl
  | bool b => rfl
  | num n => rfl
  | str s => rfl

/-- The heap-level entry loop only allocates: the store after it
extends the store before it. -/
theorem encFieldsWith_ext (step : Heap → HVal → Option (Heap × HVal))
    (encH : Heap → HVal → Heap × HVal)
    (hstep : ∀ h v res, step h v = some res → HeapExt h res.1)
    (hencExt : ∀ h v, HeapExt h (encH h v).1) :
    ∀ fs h res, encFieldsWith step encH h fs = some res →
      HeapExt h res.1 := by
  intro fs
  induction fs with
  | nil =>
    intro h res heq
    simp only [encFieldsWith, Option.some.injEq] at heq
    rw [← heq]
    exact HeapExt.refl h
  | cons p fs ih =>
    intro h res heq
    obtain ⟨k, v⟩ := p
    cases v with
    | ref a =>
      simp only [encFieldsWith] at heq
      cases hget : h[a]? with
      | none => rw [hget] at heq; simp at heq
      | some o =>
        rw [hget] at heq
        simp only at heq
        by_cases hmk : o.fields.any (fun p => p.1 == "%allot") = true
        · rw [if_pos hmk] at heq
          cases hrec : encFieldsWith step encH
              ((encH h (hGetF h (.ref a) "%allot")).1
                ++ [⟨false, [("%allot", (encH h (hGetF h (.ref a) "%allot")).2)]⟩])
              fs with
          | none => rw [hrec] at heq; simp at heq
          | some res2 =>
            obtain ⟨h2, fs2⟩ := res2
            rw [hrec] at heq
            simp only [Option.some.injEq] at heq
            rw [← heq]
            exact HeapExt.trans
              (HeapExt.trans (hencExt h (hGetF h (.ref a) "%allot"))
                (HeapExt.alloc _ _))
              (ih _ (h2, fs2) hrec)
        · rw [if_neg hmk] at heq
          cases hstepRes : step h (.ref a) with
          | none => rw [hstepRes] at heq; simp at heq
          | some r1 =>
            obtain ⟨hm, v1⟩ := r1
            rw [hstepRes] at heq
            simp only at heq
            cases hrec : encFieldsWith step encH hm fs with
            | none => rw [hrec] at heq; simp at heq
            | some res2 =>
              obtain ⟨h2, fs2⟩ := res2
              rw [hrec] at heq
              simp only [Option.some.injEq] at heq
              rw [← heq]
              exact HeapExt.trans (hstep h _ (hm, v1) hstepRes)
                (ih hm (h2, fs2) hrec)
    | undef =>
      simp only [encFieldsWith] at heq
      cases hrec : encFieldsWith step encH h fs with
      | none => rw [hrec] at heq; simp at heq
      | some res2 =>
        obtain ⟨h2, fs2⟩ := res2
        rw [hrec] at heq
        simp only [Option.some.injEq] at heq
        rw [← heq]
        exact ih h (h2, fs2) hrec
    | null =>
      simp only [encFieldsWith] at heq
      cases hrec : encFieldsWith step encH h fs with
      | none => rw [hrec] at heq; simp at heq
      | some res2 =>
        obtain ⟨h2, fs2⟩ := res2
        rw [hrec] at heq
        simp only [Option.some.injEq] at heq
        rw [← heq]
        exact ih h (h2, fs2) hrec
    | bool b =>
      simp only [encFieldsWith] at heq
      cases hrec : encFieldsWith step encH h fs with
      | none => rw [hrec] at heq; simp at heq
      | some res2 =>
        obtain ⟨h2, fs2⟩ := res2
        rw [hrec] at heq
        simp only [Option.some.injEq] at heq
        rw [← heq]
        exact ih h (h2, fs2) hrec
    | num n =>
      simp only [encFieldsWith] at heq
      cases hrec : encFieldsWith step encH h fs with
      | none => rw [hrec] at heq; simp at heq
      | some res2 =>
        obtain ⟨h2, fs2⟩ := res2
        rw [hrec] at heq
        simp only [Option.some.injEq] at heq
        rw [← heq]
        exact ih h (h2, fs2) hrec
    | str s =>
      simp only [encFieldsWith] at heq
      cases hrec : encFieldsWith step encH h fs with
      | none => rw [hrec] at heq; simp at heq
      | some res2 =>
        obtain ⟨h2, fs2⟩ := res2
        rw [hrec] at heq
        simp only [Option.some.injEq] at heq
        rw [← heq]
        exact ih h (h2, fs2) hrec

/-- The heap-level walk only allocates. -/
theorem encryptDeepH_ext (encH : Heap → HVal → Heap × HVal)
    (hencExt : ∀ h v, HeapExt h (encH h v).1) :
    ∀ fuel h v res, encryptDeepH encH fuel h v = some res →
      HeapExt h res.1 := by
  intro fuel
  induction fuel with
  | zero => intro h v res heq; simp [encryptDeepH] at heq
  | succ fuel ih =>
    intro h v res heq
    cases v with
    | ref a =>
      simp only [encryptDeepH] at heq
      cases hget : h[a]? with
      | none => rw [hget] at heq; simp at heq
      | some o =>
        rw [hget] at heq
        simp only at heq
        cases hrec : encFieldsWith (encryptDeepH encH fuel) encH h o.fields with
        | none => rw [hrec] at heq; simp at heq
        | some res1 =>
          obtain ⟨hm, fs1⟩ := res1
          rw [hrec] at heq
          simp only [Option.some.injEq] at heq
          rw [← heq]
          exact HeapExt.trans
            (encFieldsWith_ext (encryptDeepH encH fuel) encH
              (fun h2 v2 r2 hr2 => ih h2 v2 r2 hr2) hencExt o.fields h
              (hm, fs1) hrec)
            (HeapExt.alloc _ _)
    | undef =>
      simp only [encryptDeepH, Option.some.injEq] at heq
      rw [← heq]; exact HeapExt.refl h
    | null =>
      simp only [encryptDeepH, Option.some.injEq] at heq
      rw [← heq]; exact HeapExt.refl h
    | bool b =>
      simp only [encryptDeepH, Option.some.injEq] at heq
      rw [← heq]; exact HeapExt.refl h
    | num n =>
      simp only [encryptDeepH, Option.some.injEq] at heq
      rw [← heq]; exact HeapExt.refl h
    | str s =>
      simp only [encryptDeepH, Option.some.injEq] at heq
      rw [← heq]; exact HeapExt.refl h

/-- The per-record preparation loop only allocates. -/
theorem encAllotAllH_ext (encH allotH : Heap → HVal → Heap × HVal)
    (hencExt : ∀ h v, HeapExt h (encH h v).1)
    (hallotExt : ∀ h v, HeapExt h (allotH h v).1) (fuel : Nat) :
    ∀ rs h res, encAllotAllH encH allotH fuel h rs = some res →
      HeapExt h res.1 := by
  intro rs
  induction rs with
  | nil =>
    intro h res heq
    simp only [encAllotAllH, Option.some.injEq] at heq
    rw [← heq]
    exact HeapExt.refl h
  | cons r rs ih =>
    intro h res heq
    simp only [encAllotAllH] at heq
    cases hd : encryptDeepH encH fuel h r with
    | none => rw [hd] at heq; simp at heq
    | some p1 =>
      obtain ⟨hm, e⟩ := p1
      rw [hd] at heq
      simp only at heq
      cases hrec : encAllotAllH encH allotH fuel (allotH hm e).1 rs with
      | none => rw [hrec] at heq; simp at heq
      | some res2 =>
        obtain ⟨h2, out2⟩ := res2
        rw [hrec] at heq
        simp only [Option.some.injEq] at heq
        rw [← heq]
        exact HeapExt.trans (encryptDeepH_ext encH hencExt fuel h r (hm, e) hd)
          (HeapExt.trans (hallotExt hm e) (ih _ (h2, out2) hrec))

/-- The spread copy always allocates one fresh object at the end of
the store. -/
theorem spreadWithId_shape (gen : String) (h : Heap) (r : HVal) :
    ∃ o, spreadWithId gen h r = (h ++ [o], .ref h.length) := by
  cases r with
  | ref a =>
    cases hget : h[a]? with
    | none =>
      exact ⟨⟨false, [("_id", .str gen)]⟩, by simp [spreadWithId, hget]⟩
    | some o =>
      exact ⟨⟨false, hSetFields o.fields "_id" (.str gen)⟩,
        by simp [spreadWithId, hget]⟩
  | undef => exact ⟨_, rfl⟩
  | null => exact ⟨_, rfl⟩
  | bool b => exact ⟨_, rfl⟩
  | num n => exact ⟨_, rfl⟩
  | str s => exact ⟨_, rfl⟩

/-- The id pass only allocates; truthy-id records come out as the same
reference, falsy-id records come out as fresh references at or past the
old end of the store. -/
theorem addIdsH_spec (uuids : Nat → String) :
    ∀ (data : List HVal) (k : Nat) (h h1 : Heap) (rs : List HVal),
      addIdsH uuids k h data = (h1, rs) →
      (∀ (j : Nat) (r : HVal), data[j]? = some r →
        ∀ a, r = HVal.ref a → a < h.length) →
      HeapExt h h1
      ∧ (∀ (j : Nat) (r : HVal), data[j]? = some r →
          (hGetF h r "_id").truthy = true → rs[j]? = some r)
      ∧ (∀ (j : Nat) (r : HVal), data[j]? = some r →
          (hGetF h r "_id").truthy = false →
          ∃ a2, rs[j]? = some (HVal.ref a2) ∧ h.length ≤ a2) := by
  intro data
  induction data with
  | nil =>
    intro k h h1 rs heq _
    simp only [addIdsH, Prod.mk.injEq] at heq
    obtain ⟨rfl, rfl⟩ := heq
    exact ⟨HeapExt.refl h, fun j r hj => by simp at hj,
      fun j r hj => by simp at hj⟩
  | cons d ds ih =>
    intro k h h1 rs heq hvalid
    by_cases hd : (hGetF h d "_id").truthy = true
    · simp only [addIdsH, hd, if_true] at heq
      rcases hrec : addIdsH uuids k h ds with ⟨ph, prs⟩
      rw [hrec] at heq
      simp only [Prod.mk.injEq] at heq
      obtain ⟨rfl, rfl⟩ := heq
      have IH := ih k h ph prs hrec
        (fun j r hj => hvalid (j + 1) r (by simpa using hj))
      refine ⟨IH.1, ?_, ?_⟩
      · intro j r hj ht
        cases j with
        | zero =>
          simp only [List.getElem?_cons_zero, Option.some.injEq] at hj
          subst hj
          simp
        | succ j =>
          simp only [List.getElem?_cons_succ] at hj ⊢
          exact IH.2.1 j r hj ht
      · intro j r hj hf
        cases j with
        | zero =>
          simp only [List.getElem?_cons_zero, Option.some.injEq] at hj
          subst hj
          rw [hf] at hd
          simp at hd
        | succ j =>
          simp only [List.getElem?_cons_succ] at hj ⊢
          exact IH.2.2 j r hj hf
    · have hd' : (hGetF h d "_id").truthy = false := by simpa using hd
      simp only [addIdsH, hd', Bool.false_eq_true, if_false] at heq
      obtain ⟨o1, hq⟩ := spreadWithId_shape (uuids k) h d
      rw [hq] at heq
      rcases hrec : addIdsH uuids (k + 1) (h ++ [o1]) ds with ⟨ph, prs⟩
      rw [hrec] at heq
      simp only [Prod.mk.injEq] at heq
      obtain ⟨rfl, rfl⟩ := heq
      have hvalid' : ∀ (j : Nat) (r : HVal), ds[j]? = some r →
          ∀ a, r = HVal.ref a → a < (h ++ [o1]).length := by
        intro j r hj a ha
        have := hvalid (j + 1) r (by simpa using hj) a ha
        simp
        omega
      have IH := ih (k + 1) (h ++ [o1]) ph prs hrec hvalid'
      have htrans : ∀ (j : Nat) (r : HVal), ds[j]? = some r →
          hGetF (h ++ [o1]) r "_id" = hGetF h r "_id" := by
        intro j r hj
        exact hGetF_ext (HeapExt.alloc h o1) r "_id"
          (fun a ha => hvalid (j + 1) r (by simpa using hj) a ha)
      refine ⟨HeapExt.trans (HeapExt.alloc h o1) IH.1, ?_, ?_⟩
      · intro j r hj ht
        cases j with
        | zero =>
          simp only [List.getElem?_cons_zero, Option.some.injEq] at hj
          subst hj
          rw [ht] at hd'
          simp at hd'
        | succ j =>
          simp only [List.getElem?_cons_succ] at hj ⊢
          exact IH.2.1 j r hj (by rw [htrans j r hj]; exact ht)
      · intro j r hj hf
        cases j with
        | zero =>
          simp only [List.getElem?_cons_zero, Option.some.injEq] at hj
          subst hj
          exact ⟨h.length, by simp, Nat.le_refl _⟩
        | succ j =>
          simp only [List.getElem?_cons_succ] at hj ⊢
          obtain ⟨a2, ha2, hge⟩ := IH.2.2 j r hj
            (by rw [htrans j r hj]; exact hf)
          refine ⟨a2, ha2, ?_⟩
          simp at hge
          omega

/-- C10: the data-preparation phase of `writeToNodes` (the id pass and
the per-record `encryptDeep`-plus-`allot` walks, with the external
`nilql` calls assumed heap-extending) never mutates its input: the
final store extends the initial one, every pre-existing object — the
caller's records array contents and every object inside them — is
unchanged, a record with truthy `_id` is passed through as the very
same reference, and a record with absent or falsy `_id` is replaced by
a freshly allocated copy (its address at or past the old end of the
store) rather than modified in place. -/
theorem write_no_mutation (uuids : Nat → String) (k fuel : Nat)
    (encH allotH : Heap → HVal → Heap × HVal)
    (hencExt : ∀ h v, HeapExt h (encH h v).1)
    (hallotExt : ∀ h v, HeapExt h (allotH h v).1)
    (h : Heap) (data : List HVal) (h1 : Heap) (rs : List HVal)
    (hid : addIdsH uuids k h data = (h1, rs))
    (hvalid : ∀ (j : Nat) (r : HVal), data[j]? = some r →
      ∀ a, r = HVal.ref a → a < h.length)
    (h2 : Heap) (out : List HVal)
    (henc : encAllotAllH encH allotH fuel h1 rs = some (h2, out)) :
    HeapExt h h2
    ∧ (∀ a, a < h.length → h2[a]? = h[a]?)
    ∧ (∀ (j : Nat) (r : HVal), data[j]? = some r →
        (hGetF h r "_id").truthy = true → rs[j]? = some r)
    ∧ (∀ (j : Nat) (r : HVal), data[j]? = some r →
        (hGetF h r "_id").truthy = false →
        ∃ a2, rs[j]? = some (HVal.ref a2) ∧ h.length ≤ a2) := by
  have hspec := addIdsH_spec uuids data k h h1 rs hid hvalid
  have hext2 : HeapExt h1 h2 :=
    encAllotAllH_ext encH allotH hencExt hallotExt fuel rs h1 (h2, out) henc
  have hext : HeapExt h h2 := HeapExt.trans hspec.1 hext2
  exact ⟨hext, fun a ha => hext.getElem? a ha, hspec.2.1, hspec.2.2⟩

/-- Witness for C10: a store holding one record with `_id` and one
without; after the preparation phase both original objects are intact,
the id-bearing record flowed through as the same reference and the
other was replaced by a fresh copy. -/
theorem write_no_mutation_witness :
    HeapExt [⟨false, [("_id", .str "keep")]⟩, ⟨false, [("m", .str "hi")]⟩]
      ((encAllotAllH (fun h v => (h, .str "ct")) (fun h v => (h, v)) 3
        (addIdsH (fun n => "u" ++ natRepr n) 0
          [⟨false, [("_id", .str "keep")]⟩, ⟨false, [("m", .str "hi")]⟩]
          [.ref 0, .ref 1]).1
        (addIdsH (fun n => "u" ++ natRepr n) 0
          [⟨false, [("_id", .str "keep")]⟩, ⟨false, [("m", .str "hi")]⟩]
          [.ref 0, .ref 1]).2).getD
          ([], [])).1
    ∧ (∀ a, a < 2 →
        (((encAllotAllH (fun h v => (h, .str "ct")) (fun h v => (h, v)) 3
          (addIdsH (fun n => "u" ++ natRepr n) 0
            [⟨false, [("_id", .str "keep")]⟩, ⟨false, [("m", .str "hi")]⟩]
            [.ref 0, .ref 1]).1
          (addIdsH (fun n => "u" ++ natRepr n) 0
            [⟨false, [("_id", .str "keep")]⟩, ⟨false, [("m", .str "hi")]⟩]
            [.ref 0, .ref 1]).2).getD ([], [])).1)[a]?
          = [⟨false, [("_id", .str "keep")]⟩, ⟨false, [("m", .str "hi")]⟩][a]?)
    ∧ (addIdsH (fun n => "u" ++ natRepr n) 0
        [⟨false, [("_id", .str "keep")]⟩, ⟨false, [("m", .str "hi")]⟩]
        [.ref 0, .ref 1]).2[0]? = some (.ref 0)
    ∧ (∃ a2, (addIdsH (fun n => "u" ++ natRepr n) 0
        [⟨false, [("_id", .str "keep")]⟩, ⟨false, [("m", .str "hi")]⟩]
        [.ref 0, .ref 1]).2[1]? = some (.ref a2) ∧ 2 ≤ a2) := by
  have h := write_no_mutation (fun n => "u" ++ natRepr n) 0 3
    (fun h v => (h, .str "ct")) (fun h v => (h, v))
    (fun h v => ⟨[], (List.append_nil h).symm⟩)
    (fun h v => ⟨[], (List.append_nil h).symm⟩)
    [⟨false, [("_id", .str "keep")]⟩, ⟨false, [("m", .str "hi")]⟩]
    [.ref 0, .ref 1]
    (addIdsH (fun n => "u" ++ natRepr n) 0
      [⟨false, [("_id", .str "keep")]⟩, ⟨false, [("m", .str "hi")]⟩]
      [.ref 0, .ref 1]).1
    (addIdsH (fun n => "u" ++ natRepr n) 0
      [⟨false, [("_id", .str "keep")]⟩, ⟨false, [("m", .str "hi")]⟩]
      [.ref 0, .ref 1]).2
    rfl
    (by
      intro j r hj a ha
      match j, hj with
      | 0, hj =>
        simp only [List.getElem?_cons_zero, Option.some.injEq] at hj
        subst hj
        cases ha
        decide
      | 1, hj =>
        simp only [List.getElem?_cons_succ, List.getElem?_cons_zero,
          Option.some.injEq] at hj
        subst hj
        cases ha
        decide)
    (encAllotAllH (fun h v => (h, .str "ct")) (fun h v => (h, v)) 3
      (addIdsH (fun n => "u" ++ natRepr n) 0
        [⟨false, [("_id", .str "keep")]⟩, ⟨false, [("m", .str "hi")]⟩]
        [.ref 0, .ref 1]).1
      (addIdsH (fun n => "u" ++ natRepr n) 0
        [⟨false, [("_id", .str "keep")]⟩, ⟨false, [("m", .str "hi")]⟩]
        [.ref 0, .ref 1]).2
      |>.getD ([], [])).1
    (encAllotAllH (fun h v => (h, .str "ct")) (fun h v => (h, v)) 3
      (addIdsH (fun n => "u" ++ natRepr n) 0
        [⟨false, [("_id", .str "keep")]⟩, ⟨false, [("m", .str "hi")]⟩]
        [.ref 0, .ref 1]).1
      (addIdsH (fun n => "u" ++ natRepr n) 0
        [⟨false, [("_id", .str "keep")]⟩, ⟨false, [("m", .str "hi")]⟩]
        [.ref 0, .ref 1]).2
      |>.getD ([], [])).2
    rfl
  refine ⟨h.1, fun a ha => h.2.1 a ha, ?_, ?_⟩
  · exact h.2.2.1 0 (.ref 0) rfl rfl
  · exact h.2.2.2 1 (.ref 1) rfl rfl

end FeedbackVault
